import Mathlib

/-!
# Verification of the `@upstash/core-analytics` bucketed counter store

This development shallowly embeds the TypeScript sources of the repository
(the sorted-set revision of the `Analytics` class in `src/unnamed/part_001`
together with the Lua scripts in `src/src/scripts.ts`, and the hash revision
in `src/src/analytics.ts`) and proves or refutes the frozen claims about it.

Strings are modelled as `List Char` (`Str`).  JavaScript numbers are modelled
as `Int` (all quantities involved are integral: timestamps, counts, window
sizes).  The remote Redis store is modelled as an association list from key
strings to member/score association lists, which serves both as the
sorted-set store (revision of `src/unnamed/part_001`) and as the hash store
(revision of `src/src/analytics.ts`).
-/

set_option linter.unusedVariables false

/-- Strings, modelled as lists of characters. -/
abbrev Str := List Char

/-- One decimal digit character.  `Nat.digitChar` restricted to `0..9`;
values `≥ 10` never occur (guarded by `% 10`). -/
def digChar (n : Nat) : Char :=
  match n with
  | 0 => '0' | 1 => '1' | 2 => '2' | 3 => '3' | 4 => '4'
  | 5 => '5' | 6 => '6' | 7 => '7' | 8 => '8' | 9 => '9'
  | _ => '*'

/-- Numeric value of a digit character, as used by `parseInt`. -/
def charVal (c : Char) : Nat := c.toNat - '0'.toNat

/-- Little-endian decimal digits of `n`, with explicit fuel so that the
definition is structurally recursive and computes by `decide`/`rfl`.
`natRepr` always supplies sufficient fuel (`n + 1`). -/
def natDigitsAux : Nat → Nat → List Char
  | _, 0 => []
  | n, fuel + 1 =>
    if n < 10 then [digChar n] else digChar (n % 10) :: natDigitsAux (n / 10) fuel

/-- Decimal rendering of a natural number, as JavaScript `String(n)`
produces for a non-negative integral number. -/
def natRepr (n : Nat) : Str := (natDigitsAux n (n + 1)).reverse

/-- Decimal rendering of an integer, as JavaScript `String(n)` produces for
an integral number. -/
def intRepr (z : Int) : Str :=
  if z < 0 then '-' :: natRepr (-z).toNat else natRepr z.toNat

/-- Value of a little-endian digit list. -/
def revVal : List Char → Nat
  | [] => 0
  | c :: r => charVal c + 10 * revVal r

/-- Value of a big-endian digit list, as accumulated by `parseInt` over the
leading digits of its argument. -/
def digitsVal (ds : Str) : Nat := ds.foldl (fun a c => a * 10 + charVal c) 0

/-- JavaScript `parseInt(s)` restricted to the strings this code base
produces: an optional sign followed by leading decimal digits; any trailing
non-digit characters are ignored; no leading digits means `NaN`, modelled as
`none`.  (Leading whitespace trimming is not modelled; no key in this code
base carries whitespace.) -/
def parseIntJS (s : Str) : Option Int :=
  match s with
  | [] => none
  | c :: rest =>
    if c = '-' then
      let ds := rest.takeWhile Char.isDigit
      if ds.isEmpty then none else some (-(digitsVal ds : Int))
    else
      let ds := (c :: rest).takeWhile Char.isDigit
      if ds.isEmpty then none else some (digitsVal ds : Int)

/-- Splitting a string at every occurrence of a separator character,
matching JavaScript `String.prototype.split` with a single-character
separator (always returns at least one chunk). -/
def splitOnChar (sep : Char) : Str → List Str
  | [] => [[]]
  | c :: cs =>
    if c = sep then [] :: splitOnChar sep cs
    else
      match splitOnChar sep cs with
      | s :: rest => (c :: s) :: rest
      | [] => [[c]]

/-- The last chunk of `splitOnChar`, i.e. JavaScript
`s.split(sep).pop()`. -/
def lastSeg (sep : Char) (s : Str) : Str := (splitOnChar sep s).getLastD []

/-- Substring containment test (Lua `string.find` with a pattern free of
magic characters is plain substring search). -/
def containsSub (needle : Str) : Str → Bool
  | [] => needle.isEmpty
  | c :: cs => needle.isPrefixOf (c :: cs) || containsSub needle cs

/-- The suffix of `hay` following the first occurrence of `needle`, if
any. -/
def afterSub (needle : Str) : Str → Option Str
  | [] => if needle.isEmpty then some [] else none
  | c :: cs =>
    if needle.isPrefixOf (c :: cs) then some ((c :: cs).drop needle.length)
    else afterSub needle cs

/-! ## Lemmas about digit rendering and parsing -/

theorem digChar_isDigit {n : Nat} (h : n < 10) : (digChar n).isDigit = true := by
  interval_cases n <;> decide

theorem charVal_digChar {n : Nat} (h : n < 10) : charVal (digChar n) = n := by
  interval_cases n <;> decide

theorem digChar_ne_colon {n : Nat} (h : n < 10) : digChar n ≠ ':' := by
  interval_cases n <;> decide

theorem natDigitsAux_ne_nil {n fuel : Nat} (h : n < fuel) :
    natDigitsAux n fuel ≠ [] := by
  cases fuel with
  | zero => omega
  | succ f =>
    unfold natDigitsAux
    split <;> simp

theorem mem_natDigitsAux {n fuel : Nat} (h : n < fuel) :
    ∀ c ∈ natDigitsAux n fuel, ∃ k, k < 10 ∧ c = digChar k := by
  induction fuel generalizing n with
  | zero => omega
  | succ f ih =>
    intro c hc
    unfold natDigitsAux at hc
    by_cases hn : n < 10
    · simp [hn] at hc
      exact ⟨n, hn, hc⟩
    · simp [hn] at hc
      rcases hc with hc | hc
      · exact ⟨n % 10, Nat.mod_lt _ (by omega), hc⟩
      · have : n / 10 < f := by
          have h1 : n / 10 < n := Nat.div_lt_self (by omega) (by omega)
          omega
        exact ih this c hc

theorem revVal_natDigitsAux {n fuel : Nat} (h : n < fuel) :
    revVal (natDigitsAux n fuel) = n := by
  induction fuel generalizing n with
  | zero => omega
  | succ f ih =>
    unfold natDigitsAux
    by_cases hn : n < 10
    · simp [hn, revVal, charVal_digChar hn]
    · have hd : n / 10 < f := by
        have h1 : n / 10 < n := Nat.div_lt_self (by omega) (by omega)
        omega
      simp [hn, revVal, charVal_digChar (Nat.mod_lt n (by omega)), ih hd]
      omega

theorem digitsVal_append_digit (ds : Str) (c : Char) :
    digitsVal (ds ++ [c]) = digitsVal ds * 10 + charVal c := by
  simp [digitsVal, List.foldl_append]

theorem digitsVal_reverse_eq_revVal (l : List Char) :
    digitsVal l.reverse = revVal l := by
  induction l with
  | nil => rfl
  | cons c r ih =>
    simp [revVal, List.reverse_cons, digitsVal_append_digit, ih]
    omega

/-- Parsing the decimal rendering of a natural number recovers it. -/
theorem digitsVal_natRepr (n : Nat) : digitsVal (natRepr n) = n := by
  simp [natRepr, digitsVal_reverse_eq_revVal, revVal_natDigitsAux (Nat.lt_succ_self n)]

theorem natRepr_ne_nil (n : Nat) : natRepr n ≠ [] := by
  simp [natRepr, natDigitsAux_ne_nil (Nat.lt_succ_self n)]

theorem mem_natRepr_isDigit (n : Nat) : ∀ c ∈ natRepr n, c.isDigit = true := by
  intro c hc
  simp [natRepr] at hc
  obtain ⟨k, hk, rfl⟩ := mem_natDigitsAux (Nat.lt_succ_self n) c hc
  exact digChar_isDigit hk

theorem mem_natRepr_ne_colon (n : Nat) : ∀ c ∈ natRepr n, c ≠ ':' := by
  intro c hc
  simp [natRepr] at hc
  obtain ⟨k, hk, rfl⟩ := mem_natDigitsAux (Nat.lt_succ_self n) c hc
  exact digChar_ne_colon hk

theorem takeWhile_isDigit_natRepr (n : Nat) :
    (natRepr n).takeWhile Char.isDigit = natRepr n :=
  List.takeWhile_eq_self_iff.mpr (mem_natRepr_isDigit n)

theorem natRepr_head_not_dash (n : Nat) :
    ¬ natRepr n = '-' :: ((natRepr n).tail) ∨ True := Or.inr trivial

theorem natRepr_isEmpty_false (n : Nat) : (natRepr n).isEmpty = false := by
  cases h : natRepr n with
  | nil => exact absurd h (natRepr_ne_nil n)
  | cons a l => rfl

/-- JavaScript `parseInt` applied to the rendering of a natural number. -/
theorem parseIntJS_natRepr (n : Nat) : parseIntJS (natRepr n) = some (n : Int) := by
  have hne := natRepr_ne_nil n
  have hdig := mem_natRepr_isDigit n
  have htake := takeWhile_isDigit_natRepr n
  have hval : digitsVal (natRepr n) = n := digitsVal_natRepr n
  match hrepr : natRepr n with
  | [] => exact absurd hrepr hne
  | c :: rest =>
    have hc : c.isDigit = true := hdig c (by rw [hrepr]; exact List.mem_cons_self _ _)
    have hcne : ¬ c = '-' := by
      intro h
      rw [h] at hc
      exact absurd hc (by decide)
    rw [hrepr] at htake hval
    have hemp : ((c :: rest).takeWhile Char.isDigit).isEmpty = false := by
      rw [htake]; rfl
    simp only [parseIntJS, hcne, if_false, hemp, Bool.false_eq_true, htake, hval]
    simp

/-- JavaScript `parseInt` applied to the rendering of an integer. -/
theorem parseIntJS_intRepr (z : Int) : parseIntJS (intRepr z) = some z := by
  unfold intRepr
  by_cases hz : z < 0
  · simp only [hz, if_true]
    have htake := takeWhile_isDigit_natRepr (-z).toNat
    have hval : digitsVal (natRepr (-z).toNat) = (-z).toNat := digitsVal_natRepr _
    have hemp := natRepr_isEmpty_false (-z).toNat
    simp only [parseIntJS, if_pos rfl, htake, hemp, Bool.false_eq_true, if_false, hval]
    rw [Int.toNat_of_nonneg (by omega : (0:Int) ≤ -z)]
    simp
  · simp only [hz, if_false]
    rw [parseIntJS_natRepr]
    congr 1
    omega

/-! ## Lemmas about `splitOnChar` -/

theorem splitOnChar_ne_nil (sep : Char) (s : Str) : splitOnChar sep s ≠ [] := by
  cases s with
  | nil => simp [splitOnChar]
  | cons c cs =>
    unfold splitOnChar
    by_cases h : c = sep
    · simp [h]
    · simp only [h, if_false]
      match hrec : splitOnChar sep cs with
      | [] => simp
      | a :: l => simp

/-- A separator-free string splits into a single chunk. -/
theorem splitOnChar_of_not_mem {sep : Char} {s : Str} (h : sep ∉ s) :
    splitOnChar sep s = [s] := by
  induction s with
  | nil => rfl
  | cons c cs ih =>
    have hc : ¬ c = sep := fun hcs => h (hcs ▸ List.mem_cons_self c cs)
    have hcs : sep ∉ cs := fun hm => h (List.mem_cons_of_mem c hm)
    unfold splitOnChar
    rw [if_neg hc, ih hcs]

/-- Splitting a string whose head part is separator-free peels off exactly
that part. -/
theorem splitOnChar_append {sep : Char} {a : Str} (h : sep ∉ a) (b : Str) :
    splitOnChar sep (a ++ sep :: b) = a :: splitOnChar sep b := by
  induction a with
  | nil => simp [splitOnChar]
  | cons c cs ih =>
    have hc : ¬ c = sep := fun hcs => h (hcs ▸ List.mem_cons_self c cs)
    have hcs : sep ∉ cs := fun hm => h (List.mem_cons_of_mem c hm)
    simp only [List.cons_append]
    unfold splitOnChar
    rw [if_neg hc, ih hcs]
    simp only [splitOnChar]
    rw [splitOnChar.eq_def]

theorem splitOnChar_append_length_ge_two (sep : Char) (a b : Str) :
    2 ≤ (splitOnChar sep (a ++ sep :: b)).length := by
  induction a with
  | nil =>
    simp only [List.nil_append]
    unfold splitOnChar
    simp only [if_pos rfl, List.length_cons]
    have := splitOnChar_ne_nil sep b
    cases h : splitOnChar sep b with
    | nil => exact absurd h this
    | cons x l => simp
  | cons c cs ih =>
    simp only [List.cons_append]
    unfold splitOnChar
    by_cases hc : c = sep
    · simp only [hc, if_pos rfl, List.length_cons]
      have := splitOnChar_ne_nil sep (cs ++ sep :: b)
      cases h : splitOnChar sep (cs ++ sep :: b) with
      | nil => exact absurd h this
      | cons x l => simp
    · simp only [hc, if_false]
      match hrec : splitOnChar sep (cs ++ sep :: b) with
      | [] => exact absurd hrec (splitOnChar_ne_nil sep _)
      | x :: l =>
        rw [hrec] at ih
        simp at ih ⊢
        omega

/-- The last chunk of a split is the suffix after the last separator:
`lastSeg` recovers `r` from `x ++ sep :: r` whenever `r` is
separator-free, regardless of the content of `x`. -/
theorem lastSeg_append {sep : Char} (x : Str) {r : Str} (h : sep ∉ r) :
    lastSeg sep (x ++ sep :: r) = r := by
  induction x with
  | nil =>
    simp only [List.nil_append, lastSeg]
    unfold splitOnChar
    rw [if_pos rfl, splitOnChar_of_not_mem h]
    rfl
  | cons c cs ih =>
    simp only [List.cons_append, lastSeg]
    unfold splitOnChar
    by_cases hc : c = sep
    · rw [if_pos hc]
      rw [lastSeg] at ih
      match hrec : splitOnChar sep (cs ++ sep :: r) with
      | [] => exact absurd hrec (splitOnChar_ne_nil sep _)
      | xated :: l =>
        rw [hrec] at ih
        simpa using ih
    · rw [if_neg hc]
      rw [lastSeg] at ih
      match hrec : splitOnChar sep (cs ++ sep :: r) with
      | [] => exact absurd hrec (splitOnChar_ne_nil sep _)
      | y :: l =>
        rw [hrec] at ih
        have hlen := splitOnChar_append_length_ge_two sep cs r
        rw [hrec] at hlen
        simp at hlen
        match l, hlen with
        | z :: l', _ =>
          simpa using ih

/-! ## Window parsing (`parseWindow`, src/src/analytics.ts:110-135 and
src/unnamed/part_001:39-64, identical in both revisions) -/

/-- The argument of `parseWindow`: a JavaScript number or a string. -/
inductive WindowArg where
  | num (z : Int)
  | str (s : Str)
deriving DecidableEq

/-- Milliseconds per window unit character (`s`/`m`/`h`/`d`), as in the
`switch` of `parseWindow`. -/
def unitMs (c : Char) : Int :=
  if c = 's' then 1000
  else if c = 'm' then 1000 * 60
  else if c = 'h' then 1000 * 60 * 60
  else if c = 'd' then 1000 * 60 * 60 * 24
  else 0

/-- The regex `^(\d+)([smhd])$` of `parseWindow`: on success returns the
digit group and the unit character. -/
def windowMatch (s : Str) : Option (Str × Char) :=
  match s.getLast? with
  | none => none
  | some u =>
    let ds := s.dropLast
    if ds ≠ [] && ds.all Char.isDigit && (u = 's' || u = 'm' || u = 'h' || u = 'd')
    then some (ds, u) else none

/-- `parseWindow` (src/src/analytics.ts:110-135): numbers `≤ 0` throw
`Invalid window` (modelled as `Except.error ()`), positive numbers pass
through; strings must match `^(\d+)([smhd])$` and are converted to
milliseconds by the unit multiplier.  `parseInt` on the digit group is
`digitsVal`. -/
def parseWindow (w : WindowArg) : Except Unit Int :=
  match w with
  | .num z => if z ≤ 0 then .error () else .ok z
  | .str s =>
    match windowMatch s with
    | none => .error ()
    | some (ds, u) => .ok ((digitsVal ds : Int) * unitMs u)

/-! ## Bucket keys (`Key`, src/src/types.ts:8-18 and
src/src/analytics.ts:8-18, identical) -/

/-- A bucket key: `(prefix, table, bucket)`.  The `prefix` field is named
`pfx` here. -/
structure Key where
  pfx : Str
  table : Str
  bucket : Int
deriving DecidableEq

/-- `Key.prototype.toString`: `[prefix, table, bucket].join(":")`. -/
def Key.render (k : Key) : Str :=
  k.pfx ++ (':' :: (k.table ++ (':' :: intRepr k.bucket)))

/-- `Key.fromString`: split on `":"`, destructure the first three chunks,
`parseInt` the third.  A missing chunk or a `NaN` bucket is modelled as
`none` (the source would build a `Key` holding `undefined`/`NaN`, which is
not a faithful `Key` value). -/
def Key.fromRendered (s : Str) : Option Key :=
  match splitOnChar ':' s with
  | p :: t :: b :: _ => (parseIntJS b).map (fun z => ⟨p, t, z⟩)
  | _ => none

/-- Table-name validation (`validateTableName`,
src/src/analytics.ts:98-105): the regex `^[a-zA-Z0-9_-]+$`. -/
def validTable (t : Str) : Bool :=
  !t.isEmpty && t.all (fun c => c.isAlphanum || c = '_' || c = '-')

theorem mem_intRepr_ne_colon (z : Int) : ∀ c ∈ intRepr z, c ≠ ':' := by
  intro c hc
  unfold intRepr at hc
  by_cases hz : z < 0
  · rw [if_pos hz] at hc
    rcases List.mem_cons.mp hc with h | h
    · rw [h]; decide
    · exact mem_natRepr_ne_colon _ c h
  · rw [if_neg hz] at hc
    exact mem_natRepr_ne_colon _ c hc

theorem not_colon_mem_intRepr (z : Int) : ':' ∉ intRepr z := by
  intro h
  exact mem_intRepr_ne_colon z ':' h rfl

/-! ## Claim C6: `parseWindow` semantics -/

theorem parseWindow_num_nonpos {z : Int} (h : z ≤ 0) :
    parseWindow (.num z) = .error () := by
  simp [parseWindow, h]

theorem parseWindow_num_pos {z : Int} (h : 0 < z) :
    parseWindow (.num z) = .ok z := by
  simp [parseWindow]
  omega

theorem windowMatch_valid (ds : Str) (u : Char) (hds : ds ≠ [])
    (hdig : ∀ c ∈ ds, c.isDigit = true)
    (hu : u = 's' ∨ u = 'm' ∨ u = 'h' ∨ u = 'd') :
    windowMatch (ds ++ [u]) = some (ds, u) := by
  have hall : ds.all Char.isDigit = true :=
    List.all_eq_true.mpr (fun c hc => by simpa using hdig c hc)
  unfold windowMatch
  rw [List.getLast?_concat]
  rcases hu with h | h | h | h <;>
    simp [List.dropLast_concat, hds, hall, h]

theorem parseWindow_str_valid (ds : Str) (u : Char) (hds : ds ≠ [])
    (hdig : ∀ c ∈ ds, c.isDigit = true)
    (hu : u = 's' ∨ u = 'm' ∨ u = 'h' ∨ u = 'd') :
    parseWindow (.str (ds ++ [u])) = .ok ((digitsVal ds : Int) * unitMs u) := by
  simp [parseWindow, windowMatch_valid ds u hds hdig hu]

/-- Claim C6 (amended).  `parseWindow` maps every valid window string
`{n}{s|m|h|d}` to `n × {1000, 60000, 3600000, 86400000}` milliseconds and
fails with `InvalidWindow` on every numeric input `≤ 0` (and succeeds on
every positive numeric input).  Contrary to the original claim, a matching
string whose digit group denotes `0` (such as `"0s"`) is accepted and
yields `0`, which is not a strictly positive duration; see the
counterexample `parseWindow_zero_string_accepted`. -/
theorem parseWindow_spec :
    (∀ z : Int, z ≤ 0 → parseWindow (.num z) = .error ())
  ∧ (∀ z : Int, 0 < z → parseWindow (.num z) = .ok z)
  ∧ (∀ ds u, ds ≠ [] → (∀ c ∈ ds, c.isDigit = true) →
      (u = 's' ∨ u = 'm' ∨ u = 'h' ∨ u = 'd') →
      parseWindow (.str (ds ++ [u])) = .ok ((digitsVal ds : Int) * unitMs u))
  ∧ unitMs 's' = 1000 ∧ unitMs 'm' = 60000 ∧ unitMs 'h' = 3600000
  ∧ unitMs 'd' = 86400000 :=
  ⟨fun _ h => parseWindow_num_nonpos h,
   fun _ h => parseWindow_num_pos h,
   parseWindow_str_valid, rfl, rfl, rfl, rfl⟩

/-- Claim C6, counterexample to the original statement: the window string
`"0s"` does not resolve to a strictly positive duration, yet `parseWindow`
accepts it and returns `0` instead of failing with `InvalidWindow`. -/
theorem parseWindow_zero_string_accepted :
    parseWindow (.str ("0s".toList)) = .ok 0 ∧ ¬ (0 : Int) < 0 :=
  ⟨rfl, by omega⟩

/-- Witness for `parseWindow_spec` at concrete inputs: `parseWindow(7)`
passes through and `"3m"` resolves to `180000` ms. -/
theorem parseWindow_spec_witness :
    parseWindow (.num 7) = .ok 7 ∧
    parseWindow (.str ("3m".toList)) = .ok 180000 := by
  refine ⟨parseWindow_spec.2.1 7 (by decide), ?_⟩
  have h := parseWindow_spec.2.2.1 ['3'] 'm' (by decide) (by decide)
    (Or.inr (Or.inl rfl))
  simpa using h

/-! ## Claim C7: `Key` round-trip -/

/-- Claim C7 (amended).  Serialization of a `Key` to
`prefix:table:bucketStart` followed by parsing is lossless whenever neither
the prefix nor the table name contains the `':'` delimiter (the table-name
charset enforced by `validateTableName` never contains `':'`; the prefix is
caller-chosen and the default `"@upstash/analytics"` is colon-free).  For a
prefix or table containing `':'` the round-trip fails; see
`Key_roundtrip_colon_prefix_fails`. -/
theorem Key_roundtrip (k : Key) (hp : ':' ∉ k.pfx) (ht : ':' ∉ k.table) :
    Key.fromRendered (Key.render k) = some k := by
  unfold Key.render Key.fromRendered
  rw [splitOnChar_append hp, splitOnChar_append ht,
    splitOnChar_of_not_mem (not_colon_mem_intRepr k.bucket)]
  simp [parseIntJS_intRepr]

/-- Claim C7, counterexample to the original statement: for the key
`(prefix := "a:b", table := "t", bucket := 5)` the serialized form
`"a:b:t:5"` parses back to prefix `"a"`, table `"b"` and a `NaN` bucket
(`parseInt("t")`), so parse ∘ serialize is not the identity on every
`Key`. -/
theorem Key_roundtrip_colon_prefix_fails :
    Key.fromRendered (Key.render ⟨"a:b".toList, "t".toList, 5⟩) = none ∧
    Key.render ⟨"a:b".toList, "t".toList, 5⟩ = "a:b:t:5".toList := by
  constructor <;> rfl

/-- Witness for `Key_roundtrip` at a concrete key. -/
theorem Key_roundtrip_witness :
    ':' ∉ ("p".toList : Str) ∧ ':' ∉ ("events".toList : Str) ∧
    Key.fromRendered (Key.render ⟨"p".toList, "events".toList, 12345⟩) =
      some ⟨"p".toList, "events".toList, 12345⟩ :=
  ⟨by decide, by decide,
   Key_roundtrip ⟨"p".toList, "events".toList, 12345⟩ (by decide) (by decide)⟩

/-! ## The Redis store model

A sorted set (and equally a hash with integer values) is an association
list from member strings to scores; the store maps key strings to such
sets.  Later entries never shadow earlier ones: all updates go through
`zsetIncr`/`zincrby`, which update in place or append. -/

/-- A Redis sorted set (member → score), or a hash (field → value). -/
abbrev ZSet := List (Str × Int)

/-- The remote store: key → sorted set / hash. -/
abbrev Store := List (Str × ZSet)

def storeLookup (st : Store) (k : Str) : Option ZSet :=
  match st with
  | [] => none
  | (k', z) :: rest => if k' = k then some z else storeLookup rest k

/-- `DEL key`. -/
def storeRemove (st : Store) (k : Str) : Store :=
  match st with
  | [] => []
  | (k', z) :: rest => if k' = k then storeRemove rest k else (k', z) :: storeRemove rest k

def zsetScore (z : ZSet) (m : Str) : Option Int :=
  match z with
  | [] => none
  | (m', s) :: rest => if m' = m then some s else zsetScore rest m

def zsetIncr (z : ZSet) (m : Str) (d : Int) : ZSet :=
  match z with
  | [] => [(m, d)]
  | (m', s) :: rest => if m' = m then (m', s + d) :: rest else (m', s) :: zsetIncr rest m d

/-- `ZINCRBY key d member`: creates the set and/or the member as needed. -/
def zincrby (st : Store) (k m : Str) (d : Int) : Store :=
  match st with
  | [] => [(k, [(m, d)])]
  | (k', z) :: rest => if k' = k then (k', zsetIncr z m d) :: rest else (k', z) :: zincrby rest k m d

/-- The score of `member` in the set at `key` (0 when absent, matching
`ZSCORE`'s nil treated as zero by the counting semantics). -/
def zscore (st : Store) (k m : Str) : Int :=
  match storeLookup st k with
  | none => 0
  | some z => (zsetScore z m).getD 0

theorem zsetScore_incr_same (z : ZSet) (m : Str) (d : Int) :
    zsetScore (zsetIncr z m d) m = some ((zsetScore z m).getD 0 + d) := by
  induction z with
  | nil => simp [zsetIncr, zsetScore]
  | cons hd rest ih =>
    obtain ⟨m', s⟩ := hd
    by_cases h : m' = m
    · simp [zsetIncr, zsetScore, h]
    · simp [zsetIncr, zsetScore, h, ih]

theorem zscore_zincrby_same (st : Store) (k m : Str) (d : Int) :
    zscore (zincrby st k m d) k m = zscore st k m + d := by
  induction st with
  | nil => simp [zincrby, zscore, storeLookup, zsetScore]
  | cons hd rest ih =>
    obtain ⟨k', z⟩ := hd
    by_cases h : k' = k
    · simp [zincrby, zscore, storeLookup, h, zsetScore_incr_same]
    · simp [zincrby, zscore, storeLookup, h] at ih ⊢
      exact ih

theorem storeLookup_zincrby_other (st : Store) (k m : Str) (d : Int) (k' : Str)
    (h : k' ≠ k) : storeLookup (zincrby st k m d) k' = storeLookup st k' := by
  have hne : ¬ k = k' := fun hh => h hh.symm
  induction st with
  | nil => simp [zincrby, storeLookup, hne]
  | cons hd rest ih =>
    obtain ⟨k'', z⟩ := hd
    by_cases hk : k'' = k
    · subst hk
      simp [zincrby, storeLookup, hne]
    · simp only [zincrby, hk, if_false]
      by_cases hk2 : k'' = k' <;> simp [storeLookup, hk2, ih]

/-! ## JSON serialization of events (`JSON.stringify`) -/

/-- A scalar attribute value (`string | number | boolean`). -/
inductive JVal where
  | vstr (s : Str)
  | vnum (z : Int)
  | vbool (b : Bool)
deriving DecidableEq

/-- `JSON.stringify` string escaping, for the characters that require a
backslash escape among those this model manipulates (quote and
backslash; control characters are not modelled). -/
def escChar (c : Char) : Str := if c = '"' || c = '\\' then ['\\', c] else [c]

def escStr (s : Str) : Str := s.foldr (fun c acc => escChar c ++ acc) []

def jstr (s : Str) : Str := '"' :: (escStr s ++ ['"'])

def jvalRender : JVal → Str
  | .vstr s => jstr s
  | .vnum z => intRepr z
  | .vbool b => if b then "true".toList else "false".toList

/-- `JSON.stringify` of a flat object, with the properties in the given
(insertion) order. -/
def jsonStringify (attrs : List (Str × JVal)) : Str :=
  '{' :: (List.intercalate [','] (attrs.map (fun kv => jstr kv.1 ++ (':' :: jvalRender kv.2))) ++ ['}'])

/-! ## Events and configuration -/

/-- An event: an optional timestamp plus ordered caller-defined attributes.
`attrs` records the object's own enumeration (insertion) order, which is
what `JSON.stringify` serializes; the `time` property is held separately
(the source type has it as a distinguished optional field). -/
structure Event where
  time : Option Int := none
  attrs : List (Str × JVal)
deriving DecidableEq

/-- The constructed configuration: parsed window size in milliseconds, key
prefix (field `pfx`; defaults to `"@upstash/analytics"` in the source) and
parsed optional retention. -/
structure AnalyticsConfig where
  pfx : Str
  bucketSize : Int
  retention : Option Int := none
deriving DecidableEq

/-- `Math.floor(t / size) * size` (JavaScript `Math.floor` on a quotient of
integers is flooring division, `Int.fdiv`). -/
def bucketFloor (size t : Int) : Int := (Int.fdiv t size) * size

/-- `getBucket(time?)` (src/unnamed/part_001:66-71): buckets the given time,
defaulting to the current wall clock `now`. -/
def getBucket (cfg : AnalyticsConfig) (time : Option Int) (now : Int) : Int :=
  bucketFloor cfg.bucketSize (time.getD now)

/-- `[prefix, table, bucket].join(":")`. -/
def bucketKey (cfg : AnalyticsConfig) (table : Str) (bucket : Int) : Str :=
  cfg.pfx ++ (':' :: (table ++ (':' :: intRepr bucket)))

/-- The serialized counter identity of an event:
`JSON.stringify({...event, time: undefined})`.  Spreading and overwriting
`time` with `undefined` makes `JSON.stringify` drop the `time` property
while every other property keeps its position. -/
def serializeEvent (e : Event) : Str :=
  jsonStringify (e.attrs.filter (fun kv => kv.1 ≠ "time".toList))

/-- One event's increment inside `ingest`
(src/unnamed/part_001:81-93). -/
def ingestEvent (cfg : AnalyticsConfig) (table : Str) (now : Int) (st : Store) (e : Event) : Store :=
  zincrby st (bucketKey cfg table (getBucket cfg e.time now)) (serializeEvent e) 1

/-- `ingest(table, ...events)` (src/unnamed/part_001:78-95): validates the
table name, then issues one atomic `ZINCRBY` per event.  The concurrent
`Promise.all` is modelled as a sequential fold: the per-member increments
are atomic and commutative, so the final counts do not depend on
interleaving. -/
def ingest (cfg : AnalyticsConfig) (st : Store) (table : Str) (events : List Event) (now : Int) :
    Option Store :=
  if validTable table then some (events.foldl (ingestEvent cfg table now) st) else none

/-! ## Claim C5: counter identity of ingested events -/

/-- Claim C5 (amended).  The counter identity of an ingested event is the
JSON serialization of its attributes in the event object's own property
(insertion) order, with the `time` attribute stripped: for every two
events whose attribute lists are equal in that order (their timestamps may
differ), ingesting both into the same bucket increments the same counter —
its score grows by 2 — and leaves every other bucket unchanged.  The
original claim's stronger reading (identity independent of attribute
enumeration order) is false: `JSON.stringify` preserves insertion order
and performs no key sorting; see
`ingest_counter_depends_on_attr_order`. -/
theorem ingest_same_attrs_twice (cfg : AnalyticsConfig) (st : Store) (table : Str)
    (e1 e2 : Event) (now : Int)
    (hv : validTable table = true)
    (hattrs : e1.attrs = e2.attrs)
    (hbucket : getBucket cfg e1.time now = getBucket cfg e2.time now) :
    ∃ st', ingest cfg st table [e1, e2] now = some st'
      ∧ zscore st' (bucketKey cfg table (getBucket cfg e1.time now)) (serializeEvent e1)
          = zscore st (bucketKey cfg table (getBucket cfg e1.time now)) (serializeEvent e1) + 2
      ∧ ∀ k, k ≠ bucketKey cfg table (getBucket cfg e1.time now) →
          storeLookup st' k = storeLookup st k := by
  have hser : serializeEvent e2 = serializeEvent e1 := by
    unfold serializeEvent
    rw [hattrs]
  refine ⟨List.foldl (ingestEvent cfg table now) st [e1, e2], ?_, ?_, ?_⟩
  · unfold ingest
    rw [if_pos hv]
  · simp only [List.foldl_cons, List.foldl_nil, ingestEvent, hser, ← hbucket]
    rw [zscore_zincrby_same, zscore_zincrby_same]
    omega
  · intro k hk
    simp only [List.foldl_cons, List.foldl_nil, ingestEvent, hser, ← hbucket]
    rw [storeLookup_zincrby_other _ _ _ _ _ hk, storeLookup_zincrby_other _ _ _ _ _ hk]

/-- Claim C5, counterexample to the original statement: two events whose
attribute sets are equal as sets (a permutation of each other) but listed
in different enumeration orders, with timestamps in the same bucket,
serialize to different counter identities; after ingesting both, each
counter holds 1 and no counter holds 2, so the serialization is not
canonical w.r.t. key ordering. -/
theorem ingest_counter_depends_on_attr_order :
    zscore ((ingest ⟨"p".toList, 1000, none⟩ [] ("t".toList)
        [⟨some 0, [("a".toList, JVal.vnum 1), ("b".toList, JVal.vnum 2)]⟩,
         ⟨some 5, [("b".toList, JVal.vnum 2), ("a".toList, JVal.vnum 1)]⟩] 0).getD [])
      ("p:t:0".toList)
      (serializeEvent ⟨some 0, [("a".toList, JVal.vnum 1), ("b".toList, JVal.vnum 2)]⟩) = 1
  ∧ zscore ((ingest ⟨"p".toList, 1000, none⟩ [] ("t".toList)
        [⟨some 0, [("a".toList, JVal.vnum 1), ("b".toList, JVal.vnum 2)]⟩,
         ⟨some 5, [("b".toList, JVal.vnum 2), ("a".toList, JVal.vnum 1)]⟩] 0).getD [])
      ("p:t:0".toList)
      (serializeEvent ⟨some 5, [("b".toList, JVal.vnum 2), ("a".toList, JVal.vnum 1)]⟩) = 1
  ∧ serializeEvent ⟨some 0, [("a".toList, JVal.vnum 1), ("b".toList, JVal.vnum 2)]⟩
      ≠ serializeEvent ⟨some 5, [("b".toList, JVal.vnum 2), ("a".toList, JVal.vnum 1)]⟩
  ∧ List.Perm [(("a".toList : Str), JVal.vnum 1), ("b".toList, JVal.vnum 2)]
      [("b".toList, JVal.vnum 2), ("a".toList, JVal.vnum 1)] :=
  ⟨by decide, by decide, by decide,
   List.Perm.swap ("b".toList, JVal.vnum 2) ("a".toList, JVal.vnum 1) []⟩

/-- Witness for `ingest_same_attrs_twice`: two events with the same
attribute list and timestamps 0 and 500 inside the same 1000 ms bucket. -/
theorem ingest_same_attrs_twice_witness :
    validTable ("t".toList) = true
  ∧ getBucket ⟨"p".toList, 1000, none⟩ (some 0) 0 = getBucket ⟨"p".toList, 1000, none⟩ (some 500) 0
  ∧ (∃ st', ingest ⟨"p".toList, 1000, none⟩ [] ("t".toList)
        [⟨some 0, [("a".toList, JVal.vnum 1)]⟩, ⟨some 500, [("a".toList, JVal.vnum 1)]⟩] 0 = some st'
      ∧ zscore st'
          (bucketKey ⟨"p".toList, 1000, none⟩ ("t".toList)
            (getBucket ⟨"p".toList, 1000, none⟩ (some 0) 0))
          (serializeEvent ⟨some 0, [("a".toList, JVal.vnum 1)]⟩)
        = zscore ([] : Store)
          (bucketKey ⟨"p".toList, 1000, none⟩ ("t".toList)
            (getBucket ⟨"p".toList, 1000, none⟩ (some 0) 0))
          (serializeEvent ⟨some 0, [("a".toList, JVal.vnum 1)]⟩) + 2
      ∧ ∀ k, k ≠ bucketKey ⟨"p".toList, 1000, none⟩ ("t".toList)
            (getBucket ⟨"p".toList, 1000, none⟩ (some 0) 0) →
          storeLookup st' k = storeLookup ([] : Store) k) :=
  ⟨by decide, by decide,
   ingest_same_attrs_twice ⟨"p".toList, 1000, none⟩ [] ("t".toList)
     ⟨some 0, [("a".toList, JVal.vnum 1)]⟩ ⟨some 500, [("a".toList, JVal.vnum 1)]⟩ 0
     (by decide) rfl (by decide)⟩

/-! ## The cross-bucket ranker (`getMostAllowedBlockedScript`,
src/src/scripts.ts:30-81)

The script unions `num_timestamps` consecutive buckets (`ZUNION`, scores
summed, result ascending by score with lexicographic tie-break), then scans
from the highest score downward, assigning each member to a category by
substring-matching its serialized identity, stopping when all three
categories hold `num_elements` entries, the list is exhausted, or
`check_at_most` members have been examined. -/

/-- Lexicographic (byte-wise) strict order on strings, the tie-break order
Redis uses for equal scores. -/
def lexLt : Str → Str → Bool
  | [], [] => false
  | [], _ :: _ => true
  | _ :: _, [] => false
  | c :: cs, d :: ds =>
    if c.toNat < d.toNat then true
    else if d.toNat < c.toNat then false
    else lexLt cs ds

/-- Ordering of `ZUNION ... WITHSCORES` output: ascending score, ties
ascending lexicographically. -/
def entryLe (a b : Str × Int) : Bool :=
  a.2 < b.2 || (a.2 == b.2 && (lexLt a.1 b.1 || a.1 == b.1))

def insertEntry (x : Str × Int) : List (Str × Int) → List (Str × Int)
  | [] => [x]
  | y :: rest => if entryLe x y then x :: y :: rest else y :: insertEntry x rest

/-- Insertion sort by `entryLe`. -/
def sortPairs (l : List (Str × Int)) : List (Str × Int) := l.foldr insertEntry []

/-- Merge one set into the union accumulator, summing scores. -/
def zunionAdd (acc : List (Str × Int)) (z : ZSet) : List (Str × Int) :=
  z.foldl (fun a ms => zsetIncr a ms.1 ms.2) acc

/-- `ZUNION` of the sets at `keys` (missing keys contribute nothing),
`WITHSCORES`, in the ascending score order Redis returns. -/
def zunionMembers (st : Store) (keys : List Str) : List (Str × Int) :=
  sortPairs (keys.foldl (fun acc k => zunionAdd acc ((storeLookup st k).getD [])) [])

/-- The members in the scan's order: highest score first. -/
def descend (l : List (Str × Int)) : List (Str × Int) := (sortPairs l).reverse

/-- `string.find(element, "success\":true")` etc.: the category
discriminator substrings. -/
def patTrue : Str := "success\":true".toList

def patFalse : Str := "success\":false".toList

def patDenied : Str := "success\":\"denied".toList

/-- The three category accumulators of the scan.  The script's
`true_count`/`false_count`/`denied_count` variables always equal the group
lengths, so they are not duplicated here. -/
structure ScanState where
  trueGroup : List (Int × Str) := []
  falseGroup : List (Int × Str) := []
  deniedGroup : List (Int × Str) := []
deriving DecidableEq

def totalCount (st : ScanState) : Nat :=
  st.trueGroup.length + st.falseGroup.length + st.deniedGroup.length

/-- One iteration body of the scan loop (src/src/scripts.ts:63-76): skip
non-positive scores; otherwise the first substring match whose category is
not yet full appends `{score, element}` to that category. -/
def scanStep (ne : Nat) (m : Str) (s : Int) (st : ScanState) : ScanState :=
  if 0 < s then
    if containsSub patTrue m && decide (st.trueGroup.length < ne) then
      { st with trueGroup := st.trueGroup ++ [(s, m)] }
    else if containsSub patFalse m && decide (st.falseGroup.length < ne) then
      { st with falseGroup := st.falseGroup ++ [(s, m)] }
    else if containsSub patDenied m && decide (st.deniedGroup.length < ne) then
      { st with deniedGroup := st.deniedGroup ++ [(s, m)] }
    else st
  else st

/-- The scan loop (src/src/scripts.ts:62-78) over the descending member
list.  The `check_at_most` budget is the fuel: the loop steps `i` down by 2
from the top, and `cutoff_index = #result - 2 * check_at_most` allows
exactly `check_at_most` examinations; `1 <= i` is the list's end; the
total-count test covers the `(true+false+denied) < ne*3` conjunct. -/
def scanGo (ne : Nat) : List (Str × Int) → Nat → ScanState → ScanState
  | [], _, st => st
  | _ :: _, 0, st => st
  | (m, s) :: rest, b + 1, st =>
    if totalCount st < ne * 3 then scanGo ne rest b (scanStep ne m s st) else st

/-- Number of loop iterations (members examined) performed by
`scanGo`. -/
def scanExamined (ne : Nat) : List (Str × Int) → Nat → ScanState → Nat
  | [], _, _ => 0
  | _ :: _, 0, _ => 0
  | (m, s) :: rest, b + 1, st =>
    if totalCount st < ne * 3 then scanExamined ne rest b (scanStep ne m s st) + 1 else 0

/-- The bucket keys the script derives: `prefix .. ":" .. timestamp` for
`timestamp = first - (i-1) * increment`, `i = 1 .. num_timestamps`
(src/src/scripts.ts:38-42); `KEYS[1]` is `[prefix, table].join(":")`, so
these coincide with `bucketKey`. -/
def scriptKeys (cfg : AnalyticsConfig) (table : Str) (bucket : Int) (tc : Nat) : List Str :=
  (List.range tc).map (fun i => bucketKey cfg table (bucket - i * cfg.bucketSize))

/-- A ranking result entry `{identifier, count}`. -/
structure RankEntry where
  identifier : Str
  count : Int
deriving DecidableEq

/-- `JSON.parse(element).identifier` for the serialized identities this
code base produces: the string value following `"identifier":"`. -/
def extractIdentifier (m : Str) : Str :=
  match afterSub ("\"identifier\":\"".toList) m with
  | some rest => rest.takeWhile (fun c => c ≠ '"')
  | none => []

def toRankEntry (e : Int × Str) : RankEntry := ⟨extractIdentifier e.2, e.1⟩

/-- The wrapper's result `{allowed, blocked}` (the script's third, denied
group is not surfaced by the wrapper). -/
structure RankResult where
  allowed : List RankEntry
  blocked : List RankEntry
deriving DecidableEq

/-- Modelled from the spec: the TS wrapper `getMostAllowedBlocked(table,
timestampCount, itemCount, timestamp?, checkAtMost?)` matching the
five-argument `getMostAllowedBlockedScript` of src/src/scripts.ts.  The
wrapper revision present under src (src/unnamed/part_001:221-247) targets an
older four-argument revision of that script (it passes no `checkAtMost`,
whose absence would fault the script's `cutoff_index` arithmetic); the spec
supplies the missing pieces: the default `checkAtMost = itemCount × 5` and
the conversion of each category's `(score, element)` pairs to
`{identifier, count}` records in collected (descending-score) order. -/
def getMostAllowedBlocked (st : Store) (cfg : AnalyticsConfig) (table : Str)
    (timestampCount itemCount : Nat) (ts : Option Int) (checkAtMost : Option Nat)
    (now : Int) : Option RankResult :=
  if validTable table then
    let bucket := getBucket cfg ts now
    let cam := checkAtMost.getD (itemCount * 5)
    let fin := scanGo itemCount
      (descend (zunionMembers st (scriptKeys cfg table bucket timestampCount))) cam {}
    some ⟨fin.trueGroup.map toRankEntry, fin.falseGroup.map toRankEntry⟩
  else none

/-! ## Claim C1: concrete ranking example -/

/-- Claim C1.  For buckets whose unioned entries are `{A: 10 success true,
B: 5 blocked, C: 1 success true}` and `itemCount = 1`,
`getMostAllowedBlocked` returns `allowed = [{A, 10}]` and
`blocked = [{B, 5}]`, each list in descending-score order (here a single
entry each: C is skipped because the allowed category is already full). -/
theorem getMostAllowedBlocked_example :
    getMostAllowedBlocked
      [(bucketKey ⟨"p".toList, 1000, none⟩ ("t".toList) 0,
        [(jsonStringify [("identifier".toList, JVal.vstr ("A".toList)), ("success".toList, JVal.vbool true)], 10),
         (jsonStringify [("identifier".toList, JVal.vstr ("B".toList)), ("success".toList, JVal.vbool false)], 5),
         (jsonStringify [("identifier".toList, JVal.vstr ("C".toList)), ("success".toList, JVal.vbool true)], 1)])]
      ⟨"p".toList, 1000, none⟩ ("t".toList) 1 1 (some 0) none 0
    = some ⟨[⟨"A".toList, 10⟩], [⟨"B".toList, 5⟩]⟩ := by decide

/-! ## Claim C2: the scan budget -/

/-- Case analysis of one scan step: either nothing changes, or exactly one
non-full category gains the member, whose score is positive. -/
theorem scanStep_cases (ne : Nat) (m : Str) (s : Int) (st : ScanState) :
    scanStep ne m s st = st
    ∨ (0 < s ∧ st.trueGroup.length < ne ∧
        scanStep ne m s st = { st with trueGroup := st.trueGroup ++ [(s, m)] })
    ∨ (0 < s ∧ st.falseGroup.length < ne ∧
        scanStep ne m s st = { st with falseGroup := st.falseGroup ++ [(s, m)] })
    ∨ (0 < s ∧ st.deniedGroup.length < ne ∧
        scanStep ne m s st = { st with deniedGroup := st.deniedGroup ++ [(s, m)] }) := by
  unfold scanStep
  by_cases h0 : 0 < s
  · rw [if_pos h0]
    by_cases h1 : (containsSub patTrue m && decide (st.trueGroup.length < ne)) = true
    · rw [if_pos h1]
      simp only [Bool.and_eq_true, decide_eq_true_eq] at h1
      exact Or.inr (Or.inl ⟨h0, h1.2, rfl⟩)
    · rw [if_neg h1]
      by_cases h2 : (containsSub patFalse m && decide (st.falseGroup.length < ne)) = true
      · rw [if_pos h2]
        simp only [Bool.and_eq_true, decide_eq_true_eq] at h2
        exact Or.inr (Or.inr (Or.inl ⟨h0, h2.2, rfl⟩))
      · rw [if_neg h2]
        by_cases h3 : (containsSub patDenied m && decide (st.deniedGroup.length < ne)) = true
        · rw [if_pos h3]
          simp only [Bool.and_eq_true, decide_eq_true_eq] at h3
          exact Or.inr (Or.inr (Or.inr ⟨h0, h3.2, rfl⟩))
        · rw [if_neg h3]
          exact Or.inl rfl
  · rw [if_neg h0]
    exact Or.inl rfl

theorem scanStep_lengths_le {ne : Nat} {m : Str} {s : Int} {st : ScanState}
    (ht : st.trueGroup.length ≤ ne) (hf : st.falseGroup.length ≤ ne)
    (hd : st.deniedGroup.length ≤ ne) :
    (scanStep ne m s st).trueGroup.length ≤ ne ∧
    (scanStep ne m s st).falseGroup.length ≤ ne ∧
    (scanStep ne m s st).deniedGroup.length ≤ ne := by
  rcases scanStep_cases ne m s st with h | ⟨_, hlt, h⟩ | ⟨_, hlt, h⟩ | ⟨_, hlt, h⟩ <;> rw [h]
  · exact ⟨ht, hf, hd⟩
  · refine ⟨?_, hf, hd⟩
    simp only [List.length_append, List.length_cons, List.length_nil]
    omega
  · refine ⟨ht, ?_, hd⟩
    simp only [List.length_append, List.length_cons, List.length_nil]
    omega
  · refine ⟨ht, hf, ?_⟩
    simp only [List.length_append, List.length_cons, List.length_nil]
    omega

/-- The scan examines at most `check_at_most` members. -/
theorem scanExamined_le_budget (ne : Nat) (ms : List (Str × Int)) (b : Nat) (st : ScanState) :
    scanExamined ne ms b st ≤ b := by
  induction ms generalizing b st with
  | nil => simp [scanExamined]
  | cons hd rest ih =>
    obtain ⟨m, s⟩ := hd
    cases b with
    | zero => simp [scanExamined]
    | succ b' =>
      unfold scanExamined
      split
      · have := ih b' (scanStep ne m s st)
        omega
      · omega

theorem scanExamined_le_length (ne : Nat) (ms : List (Str × Int)) (b : Nat) (st : ScanState) :
    scanExamined ne ms b st ≤ ms.length := by
  induction ms generalizing b st with
  | nil => simp [scanExamined]
  | cons hd rest ih =>
    obtain ⟨m, s⟩ := hd
    cases b with
    | zero => simp [scanExamined]
    | succ b' =>
      unfold scanExamined
      split
      · have := ih b' (scanStep ne m s st)
        simp only [List.length_cons]
        omega
      · simp

/-- If the scan stopped strictly before exhausting both the budget and the
member list, it stopped because all three categories were full. -/
theorem scanGo_full_stop (ne : Nat) (ms : List (Str × Int)) (b : Nat) (st : ScanState)
    (ht : st.trueGroup.length ≤ ne) (hf : st.falseGroup.length ≤ ne)
    (hd : st.deniedGroup.length ≤ ne)
    (hex1 : scanExamined ne ms b st < b)
    (hex2 : scanExamined ne ms b st < ms.length) :
    (scanGo ne ms b st).trueGroup.length = ne ∧
    (scanGo ne ms b st).falseGroup.length = ne ∧
    (scanGo ne ms b st).deniedGroup.length = ne := by
  induction ms generalizing b st with
  | nil => simp [scanExamined] at hex2
  | cons hdm rest ih =>
    obtain ⟨m, s⟩ := hdm
    cases b with
    | zero => simp [scanExamined] at hex1
    | succ b' =>
      by_cases hc : totalCount st < ne * 3
      · unfold scanExamined at hex1 hex2
        rw [if_pos hc] at hex1 hex2
        unfold scanGo
        rw [if_pos hc]
        obtain ⟨ht', hf', hd'⟩ := scanStep_lengths_le (m := m) (s := s) ht hf hd
        exact ih b' (scanStep ne m s st) ht' hf' hd' (by omega)
          (by simp only [List.length_cons] at hex2; omega)
      · unfold scanGo
        rw [if_neg hc]
        unfold totalCount at hc
        refine ⟨by omega, by omega, by omega⟩

/-- Entries collected by the scan from a state with only positive-score
entries still all have positive scores. -/
theorem scanGo_pos_scores (ne : Nat) (ms : List (Str × Int)) (b : Nat) (st : ScanState)
    (ht : ∀ e ∈ st.trueGroup, 0 < e.1) (hf : ∀ e ∈ st.falseGroup, 0 < e.1)
    (hd : ∀ e ∈ st.deniedGroup, 0 < e.1) :
    (∀ e ∈ (scanGo ne ms b st).trueGroup, 0 < e.1) ∧
    (∀ e ∈ (scanGo ne ms b st).falseGroup, 0 < e.1) ∧
    (∀ e ∈ (scanGo ne ms b st).deniedGroup, 0 < e.1) := by
  induction ms generalizing b st with
  | nil => exact ⟨ht, hf, hd⟩
  | cons hdm rest ih =>
    obtain ⟨m, s⟩ := hdm
    cases b with
    | zero => exact ⟨ht, hf, hd⟩
    | succ b' =>
      unfold scanGo
      by_cases hc : totalCount st < ne * 3
      · rw [if_pos hc]
        have hstep : (∀ e ∈ (scanStep ne m s st).trueGroup, 0 < e.1) ∧
            (∀ e ∈ (scanStep ne m s st).falseGroup, 0 < e.1) ∧
            (∀ e ∈ (scanStep ne m s st).deniedGroup, 0 < e.1) := by
          rcases scanStep_cases ne m s st with h | ⟨hs, _, h⟩ | ⟨hs, _, h⟩ | ⟨hs, _, h⟩ <;> rw [h]
          · exact ⟨ht, hf, hd⟩
          · refine ⟨?_, hf, hd⟩
            intro e he
            rcases List.mem_append.mp he with hin | hin
            · exact ht e hin
            · simp at hin
              rw [hin]
              exact hs
          · refine ⟨ht, ?_, hd⟩
            intro e he
            rcases List.mem_append.mp he with hin | hin
            · exact hf e hin
            · simp at hin
              rw [hin]
              exact hs
          · refine ⟨ht, hf, ?_⟩
            intro e he
            rcases List.mem_append.mp he with hin | hin
            · exact hd e hin
            · simp at hin
              rw [hin]
              exact hs
        exact ih b' (scanStep ne m s st) hstep.1 hstep.2.1 hstep.2.2
      · rw [if_neg hc]
        exact ⟨ht, hf, hd⟩

/-- Claim C2.  For every call to `getMostAllowedBlocked`, the ranking scan
over the score-descending union stops exactly when either every category
has collected `itemCount` entries or the number of members examined
reaches the `checkAtMost` budget (defaulting to `itemCount × 5` when
omitted — last conjunct, on the wrapper), and a member with score `≤ 0` is
never appended to, or counted toward, any category.  (Exhausting the union
itself also ends the scan, which the claim leaves implicit.) -/
theorem getMostAllowedBlocked_scan_budget (ne cam : Nat) (ms : List (Str × Int)) :
    scanExamined ne ms cam {} ≤ cam
  ∧ (scanExamined ne ms cam {} < cam → scanExamined ne ms cam {} < ms.length →
      (scanGo ne ms cam {}).trueGroup.length = ne
      ∧ (scanGo ne ms cam {}).falseGroup.length = ne
      ∧ (scanGo ne ms cam {}).deniedGroup.length = ne)
  ∧ (∀ e ∈ (scanGo ne ms cam {}).trueGroup, 0 < e.1)
  ∧ (∀ e ∈ (scanGo ne ms cam {}).falseGroup, 0 < e.1)
  ∧ (∀ e ∈ (scanGo ne ms cam {}).deniedGroup, 0 < e.1)
  ∧ (∀ st cfg table tc ic ts now,
      getMostAllowedBlocked st cfg table tc ic ts none now
        = getMostAllowedBlocked st cfg table tc ic ts (some (ic * 5)) now) := by
  have hpos := scanGo_pos_scores ne ms cam {} (by simp) (by simp) (by simp)
  exact ⟨scanExamined_le_budget ne ms cam {},
    fun h1 h2 => scanGo_full_stop ne ms cam {} (by simp) (by simp) (by simp) h1 h2,
    hpos.1, hpos.2.1, hpos.2.2,
    fun st cfg table tc ic ts now => rfl⟩

/-- Demonstration members for the scan-budget witness: one member of each
category plus a fourth; with `itemCount = 1` the scan stops after three
examinations with every category full. -/
def scanDemoMembers : List (Str × Int) :=
  [(jsonStringify [("identifier".toList, JVal.vstr ("A".toList)), ("success".toList, JVal.vbool true)], 9),
   (jsonStringify [("identifier".toList, JVal.vstr ("B".toList)), ("success".toList, JVal.vbool false)], 8),
   (jsonStringify [("identifier".toList, JVal.vstr ("C".toList)), ("success".toList, JVal.vstr ("denied".toList))], 7),
   (jsonStringify [("identifier".toList, JVal.vstr ("D".toList)), ("success".toList, JVal.vbool true)], 6)]

/-- Witness for `getMostAllowedBlocked_scan_budget`: on
`scanDemoMembers` with `itemCount = 1` and budget 5, the scan stops after
3 of 4 members, all categories full. -/
theorem getMostAllowedBlocked_scan_budget_witness :
    scanExamined 1 scanDemoMembers 5 {} < 5
  ∧ scanExamined 1 scanDemoMembers 5 {} < scanDemoMembers.length
  ∧ (scanGo 1 scanDemoMembers 5 {}).trueGroup.length = 1
  ∧ (scanGo 1 scanDemoMembers 5 {}).falseGroup.length = 1
  ∧ (scanGo 1 scanDemoMembers 5 {}).deniedGroup.length = 1 := by
  have h := (getMostAllowedBlocked_scan_budget 1 5 scanDemoMembers).2.1
    (by decide) (by decide)
  exact ⟨by decide, by decide, h.1, h.2.1, h.2.2⟩

/-! ## The bucket aggregator (`aggregateHourScript` + `aggregateBucket`,
src/src/scripts.ts:1-28 and src/unnamed/part_001:97-184) -/

/-- The `aggregateHourScript` as invoked by this repository's callers: both
`aggregateBucket` (src/unnamed/part_001:108-112) and the pipelined variant
pass an empty `ARGV`, so the script's `field = ARGV[1]` is nil.  On an
absent or empty bucket the fold never runs and the script returns the
empty table.  On a non-empty bucket the first iteration reads
`obj[nil] = nil` and then executes `count[nil] = score`; assigning to a nil
table index is a Lua runtime error, modelled as `Except.error ()`. -/
def evalAggregateHour (st : Store) (key : Str) : Except Unit (List (Str × Int)) :=
  match (storeLookup st key).getD [] with
  | [] => .ok []
  | _ :: _ => .error ()

/-- The TS-side per-bucket result `{time, success: {true: result[0],
false: result[1]}}` (src/unnamed/part_001:114-120).  The script returns a
list of `(fieldValue, count)` pairs, so the two slots hold the first and
second returned pair when present, and JavaScript `undefined` (`none`)
when absent. -/
structure Agg where
  time : Int
  successTrue : Option (Str × Int)
  successFalse : Option (Str × Int)
deriving DecidableEq

def mkAgg (t : Int) (r : List (Str × Int)) : Agg := ⟨t, r.get? 0, r.get? 1⟩

/-- `aggregateBucket` without the table-name guard
(src/unnamed/part_001:97-121): floor the timestamp to its bucket, run the
aggregation script on that bucket's key, wrap the result. -/
def aggregateBucketCore (st : Store) (cfg : AnalyticsConfig) (table : Str)
    (ts : Option Int) (now : Int) : Except Unit Agg :=
  let bucket := getBucket cfg ts now
  (evalAggregateHour st (bucketKey cfg table bucket)).map (mkAgg bucket)

def aggregateBucket (st : Store) (cfg : AnalyticsConfig) (table : Str)
    (ts : Option Int) (now : Int) : Option (Except Unit Agg) :=
  if validTable table then some (aggregateBucketCore st cfg table ts now) else none

/-- `Promise.all` over a list of settled outcomes: the first rejection
rejects the whole batch, otherwise all results in order. -/
def allE {α : Type} : List (Except Unit α) → Except Unit (List α)
  | [] => .ok []
  | e :: es =>
    match e with
    | .error x => .error x
    | .ok a => (allE es).map (fun l => a :: l)

/-- The per-bucket promises of `aggregateBuckets`
(src/unnamed/part_001:130-139): one `aggregateBucket` call per bucket,
walking backward one bucket size per step. -/
def aggPromises (st : Store) (cfg : AnalyticsConfig) (table : Str) (now : Int) :
    Nat → Int → List (Except Unit Agg)
  | 0, _ => []
  | n + 1, b =>
    aggregateBucketCore st cfg table (some b) now ::
      aggPromises st cfg table now n (b - cfg.bucketSize)

/-- `aggregateBuckets` (src/unnamed/part_001:123-142). -/
def aggregateBuckets (st : Store) (cfg : AnalyticsConfig) (table : Str)
    (bucketCount : Nat) (ts : Option Int) (now : Int) :
    Option (Except Unit (List Agg)) :=
  if validTable table then
    some (allE (aggPromises st cfg table now bucketCount (getBucket cfg ts now)))
  else none

/-- The per-bucket script evaluations queued by the pipelined variant
(src/unnamed/part_001:158-166): the key is built directly from the running
bucket value. -/
def pipeEvals (st : Store) (cfg : AnalyticsConfig) (table : Str) :
    Nat → Int → List (Except Unit (List (Str × Int)))
  | 0, _ => []
  | n + 1, b =>
    evalAggregateHour st (bucketKey cfg table b) :: pipeEvals st cfg table n (b - cfg.bucketSize)

/-- The bucket timestamps pushed into `buckets`
(src/unnamed/part_001:154,165). -/
def bucketTimes (size : Int) : Nat → Int → List Int
  | 0, _ => []
  | n + 1, b => b :: bucketTimes size n (b - size)

/-- The batches cut by flushing the pipeline whenever
`i % maxPipelineSize == 0 || i == bucketCount`
(src/unnamed/part_001:168-171): consecutive chunks of `m` commands, the
last one possibly shorter (for `m ≥ 1`, the only values that reach it). -/
def chunkList {α : Type} (m : Nat) : List α → List (List α)
  | [] => []
  | x :: xs => (x :: xs.take (m - 1)) :: chunkList m (xs.drop (m - 1))
  termination_by l => l.length
  decreasing_by simp [List.length_drop]; omega

/-- `aggregateBucketsWithPipeline` (src/unnamed/part_001:144-184): the same
per-bucket script evaluations, issued in batches of at most
`maxPipelineSize` (default 48), flattened, and zipped with the recorded
bucket timestamps. -/
def aggregateBucketsWithPipeline (st : Store) (cfg : AnalyticsConfig) (table : Str)
    (bucketCount : Nat) (ts : Option Int) (maxPipelineSize : Option Nat) (now : Int) :
    Option (Except Unit (List Agg)) :=
  if validTable table then
    let mp := maxPipelineSize.getD 48
    let b0 := getBucket cfg ts now
    let evals := pipeEvals st cfg table bucketCount b0
    let times := bucketTimes cfg.bucketSize bucketCount b0
    some (((allE ((chunkList mp evals).map allE)).map List.flatten).map
      (fun rows => (rows.zip times).map (fun rt => mkAgg rt.2 rt.1)))
  else none

/-! ## Claim C3: empty-bucket aggregation -/

/-- Claim C3.  For every table and timestamp, `aggregateBucket` over an
absent or empty bucket does not raise an error and returns
`{time: bucketStart, success: {}}`: the aggregation script returns the
empty table, so both `result[0]` and `result[1]` are `undefined` (`none`)
and the per-field map carries no counts. -/
theorem aggregateBucket_empty (st : Store) (cfg : AnalyticsConfig) (table : Str)
    (ts : Option Int) (now : Int)
    (hv : validTable table = true)
    (he : (storeLookup st (bucketKey cfg table (getBucket cfg ts now))).getD [] = []) :
    aggregateBucket st cfg table ts now
      = some (.ok ⟨getBucket cfg ts now, none, none⟩) := by
  unfold aggregateBucket aggregateBucketCore evalAggregateHour
  rw [if_pos hv]
  simp only [he]
  rfl

/-- Witness for `aggregateBucket_empty`: the empty store. -/
theorem aggregateBucket_empty_witness :
    validTable ("t".toList) = true
  ∧ (storeLookup ([] : Store)
      (bucketKey ⟨"p".toList, 1000, none⟩ ("t".toList)
        (getBucket ⟨"p".toList, 1000, none⟩ (some 1234) 0))).getD [] = []
  ∧ aggregateBucket ([] : Store) ⟨"p".toList, 1000, none⟩ ("t".toList) (some 1234) 0
      = some (.ok ⟨getBucket ⟨"p".toList, 1000, none⟩ (some 1234) 0, none, none⟩) :=
  ⟨by decide, by decide,
   aggregateBucket_empty [] ⟨"p".toList, 1000, none⟩ ("t".toList) (some 1234) 0
     (by decide) (by decide)⟩

/-! ## Claim C4: pipelined aggregation refines the serial one -/

theorem allE_append {α : Type} (l1 l2 : List (Except Unit α)) :
    allE (l1 ++ l2) =
      match allE l1 with
      | .error x => .error x
      | .ok a => (allE l2).map (fun b => a ++ b) := by
  induction l1 with
  | nil =>
    show allE l2 = (allE l2).map (fun b => [] ++ b)
    cases allE l2 <;> simp [Except.map]
  | cons e es ih =>
    cases e with
    | error x => rfl
    | ok a =>
      show (allE (es ++ l2)).map (fun l => a :: l) = _
      rw [ih]
      cases hes : allE es with
      | error x => simp [allE, hes, Except.map]
      | ok b =>
        cases hl2 : allE l2 <;> simp [Except.map, allE, hes, hl2]

/-- Executing the batches and flattening gives the same outcome as one
flat execution: `Promise.all` over per-batch `Promise.all`s, flattened,
equals `Promise.all` of the full command list (first error either way). -/
theorem allE_chunk {α : Type} (m : Nat) (l : List (Except Unit α)) :
    (allE ((chunkList m l).map allE)).map List.flatten = allE l := by
  suffices hgen : ∀ (n : Nat) (l : List (Except Unit α)), l.length = n →
      (allE ((chunkList m l).map allE)).map List.flatten = allE l from hgen l.length l rfl
  intro n
  induction n using Nat.strong_induction_on with
  | _ n ih =>
    intro l hn
    match l with
    | [] => simp [chunkList, allE, Except.map]
    | x :: xs =>
      have hcover : (x :: xs.take (m - 1)) ++ xs.drop (m - 1) = x :: xs := by
        simp
      have hrec := ih (xs.drop (m - 1)).length
        (by rw [← hn]; simp [List.length_drop]; omega) (xs.drop (m - 1)) rfl
      unfold chunkList
      simp only [List.map_cons]
      rw [← hcover, allE_append]
      cases hc : allE (x :: xs.take (m - 1)) with
      | error e =>
        simp [allE, hc, Except.map]
      | ok a =>
        cases hq : allE ((chunkList m (xs.drop (m - 1))).map allE) with
        | error e =>
          rw [hq] at hrec
          simp only [Except.map] at hrec
          simp [allE, hc, hq, Except.map, ← hrec]
        | ok rows =>
          rw [hq] at hrec
          simp only [Except.map] at hrec
          simp [allE, hc, hq, Except.map, ← hrec]

theorem bucketFloor_dvd {s b : Int} (hs : s ≠ 0) (hb : s ∣ b) : bucketFloor s b = b := by
  obtain ⟨q, rfl⟩ := hb
  unfold bucketFloor
  rw [Int.mul_fdiv_cancel_left q hs, mul_comm]

/-- The serial per-bucket promises and the pipelined per-bucket script
evaluations agree: collecting the former equals collecting the latter and
zipping with the recorded bucket timestamps. -/
theorem allE_aggPromises_eq (st : Store) (cfg : AnalyticsConfig) (table : Str) (now : Int)
    (hs : cfg.bucketSize ≠ 0) :
    ∀ (n : Nat) (b : Int), cfg.bucketSize ∣ b →
      allE (aggPromises st cfg table now n b)
        = (allE (pipeEvals st cfg table n b)).map
            (fun rows => (rows.zip (bucketTimes cfg.bucketSize n b)).map
              (fun rt => mkAgg rt.2 rt.1)) := by
  intro n
  induction n with
  | zero =>
    intro b hb
    simp [aggPromises, pipeEvals, bucketTimes, allE, Except.map]
  | succ n ih =>
    intro b hb
    have hfloor : getBucket cfg (some b) now = b := by
      simp only [getBucket, Option.getD]
      exact bucketFloor_dvd hs hb
    have hb' : cfg.bucketSize ∣ (b - cfg.bucketSize) := hb.sub (dvd_refl _)
    have hcore : aggregateBucketCore st cfg table (some b) now
        = (evalAggregateHour st (bucketKey cfg table b)).map (mkAgg b) := by
      unfold aggregateBucketCore
      rw [hfloor]
    unfold aggPromises pipeEvals bucketTimes
    rw [hcore]
    cases he : evalAggregateHour st (bucketKey cfg table b) with
    | error e => simp [allE, he, Except.map]
    | ok r =>
      simp only [allE, he, Except.map]
      rw [ih (b - cfg.bucketSize) hb']
      cases hp : allE (pipeEvals st cfg table n (b - cfg.bucketSize)) with
      | error e => simp [Except.map, hp]
      | ok rows => simp [Except.map, hp]

theorem chunkList_length_le {α : Type} {m : Nat} (hm : 1 ≤ m) :
    ∀ (l : List α), ∀ c ∈ chunkList m l, c.length ≤ m := by
  suffices hgen : ∀ (n : Nat) (l : List α), l.length = n → ∀ c ∈ chunkList m l, c.length ≤ m from
    fun l => hgen l.length l rfl
  intro n
  induction n using Nat.strong_induction_on with
  | _ n ih =>
    intro l hn c hc
    match l with
    | [] => simp [chunkList] at hc
    | x :: xs =>
      unfold chunkList at hc
      rcases List.mem_cons.mp hc with h | h
      · subst h
        simp only [List.length_cons, List.length_take]
        omega
      · exact ih (xs.drop (m - 1)).length
          (by rw [← hn]; simp only [List.length_drop, List.length_cons]; omega)
          (xs.drop (m - 1)) rfl c h

theorem chunkList_flatten {α : Type} (m : Nat) :
    ∀ (l : List α), (chunkList m l).flatten = l := by
  suffices hgen : ∀ (n : Nat) (l : List α), l.length = n → (chunkList m l).flatten = l from
    fun l => hgen l.length l rfl
  intro n
  induction n using Nat.strong_induction_on with
  | _ n ih =>
    intro l hn
    match l with
    | [] => simp [chunkList]
    | x :: xs =>
      unfold chunkList
      simp only [List.flatten_cons]
      rw [ih (xs.drop (m - 1)).length
        (by rw [← hn]; simp only [List.length_drop, List.length_cons]; omega)
        (xs.drop (m - 1)) rfl]
      simp

/-- Claim C4.  For every table, bucketCount and timestamp,
`aggregateBucketsWithPipeline` returns exactly the same per-bucket results
in exactly the same newest-to-oldest bucket order as `aggregateBuckets`
(also when `maxPipelineSize` is omitted and defaults to 48), while issuing
its per-bucket aggregation calls in batches of at most `maxPipelineSize`
commands that together cover exactly the per-bucket call list. -/
theorem aggregateBucketsWithPipeline_eq (st : Store) (cfg : AnalyticsConfig) (table : Str)
    (bucketCount : Nat) (ts : Option Int) (now : Int) (mp : Nat)
    (hs : 0 < cfg.bucketSize) (hmp : 1 ≤ mp) :
    aggregateBucketsWithPipeline st cfg table bucketCount ts (some mp) now
      = aggregateBuckets st cfg table bucketCount ts now
  ∧ aggregateBucketsWithPipeline st cfg table bucketCount ts none now
      = aggregateBuckets st cfg table bucketCount ts now
  ∧ (∀ c ∈ chunkList mp (pipeEvals st cfg table bucketCount (getBucket cfg ts now)),
      c.length ≤ mp)
  ∧ (chunkList mp (pipeEvals st cfg table bucketCount (getBucket cfg ts now))).flatten
      = pipeEvals st cfg table bucketCount (getBucket cfg ts now) := by
  have hdvd : cfg.bucketSize ∣ getBucket cfg ts now := by
    unfold getBucket bucketFloor
    exact dvd_mul_left _ _
  have key : ∀ mpv : Nat,
      aggregateBucketsWithPipeline st cfg table bucketCount ts (some mpv) now
        = aggregateBuckets st cfg table bucketCount ts now := by
    intro mpv
    by_cases hv : validTable table = true
    · simp only [aggregateBucketsWithPipeline, aggregateBuckets, if_pos hv,
        Option.getD_some]
      congr 1
      rw [allE_chunk]
      exact (allE_aggPromises_eq st cfg table now (by omega) bucketCount _ hdvd).symm
    · simp only [aggregateBucketsWithPipeline, aggregateBuckets, if_neg hv]
  exact ⟨key mp, key 48, chunkList_length_le hmp _, chunkList_flatten mp _⟩

/-- Witness for `aggregateBucketsWithPipeline_eq` at a concrete
configuration (bucket size 10, three buckets, batches of two). -/
theorem aggregateBucketsWithPipeline_eq_witness :
    (0 : Int) < 10 ∧ (1 : Nat) ≤ 2
  ∧ aggregateBucketsWithPipeline [] ⟨"p".toList, 10, none⟩ ("t".toList) 3 (some 0) (some 2) 0
      = aggregateBuckets [] ⟨"p".toList, 10, none⟩ ("t".toList) 3 (some 0) 0
  ∧ aggregateBucketsWithPipeline [] ⟨"p".toList, 10, none⟩ ("t".toList) 3 (some 0) none 0
      = aggregateBuckets [] ⟨"p".toList, 10, none⟩ ("t".toList) 3 (some 0) 0 :=
  ⟨by decide, by decide,
   (aggregateBucketsWithPipeline_eq [] ⟨"p".toList, 10, none⟩ ("t".toList) 3 (some 0) 0 2
     (by decide) (by decide)).1,
   (aggregateBucketsWithPipeline_eq [] ⟨"p".toList, 10, none⟩ ("t".toList) 3 (some 0) 0 2
     (by decide) (by decide)).2.1⟩

/-! ## The hash revision (`src/src/analytics.ts`): read-through cache,
retention-evicting `loadBuckets`, and `count`

This revision stores buckets as Redis hashes (`HINCRBY`/`HGETALL`); the
same `Store`/`ZSet` model serves, with scores read as plain values. -/

/-- A cache entry `(value, createdAt)` (src/src/analytics.ts:50). -/
structure CacheE where
  value : ZSet
  createdAt : Int
deriving DecidableEq

abbrev CacheMap := List (Str × CacheE)

def cacheLookup (c : CacheMap) (k : Str) : Option CacheE :=
  match c with
  | [] => none
  | (k', e) :: rest => if k' = k then some e else cacheLookup rest k

def cacheRemove (c : CacheMap) (k : Str) : CacheMap :=
  match c with
  | [] => []
  | (k', e) :: rest => if k' = k then cacheRemove rest k else (k', e) :: cacheRemove rest k

/-- JavaScript `Map.prototype.set`: replace in place, else append. -/
def cacheSet (c : CacheMap) (k : Str) (v : ZSet) (now : Int) : CacheMap :=
  match c with
  | [] => [(k, ⟨v, now⟩)]
  | (k', e) :: rest =>
    if k' = k then (k', ⟨v, now⟩) :: rest else (k', e) :: cacheSet rest k v now

/-- `Cache.prototype.get` (src/src/analytics.ts:66-76): a missing entry is
a miss; an entry older than `ttl` is deleted and missed; otherwise a hit.
Returns the possibly-updated map. -/
def cacheGet (c : CacheMap) (ttl now : Int) (k : Str) : CacheMap × Option ZSet :=
  match cacheLookup c k with
  | none => (c, none)
  | some e => if now - e.createdAt > ttl then (cacheRemove c k, none) else (c, some e.value)

/-- Comparison helpers for `parseInt` results: JavaScript comparisons with
`NaN` are false. -/
def optLt (t : Option Int) (x : Int) : Bool :=
  match t with
  | none => false
  | some v => decide (v < x)

def optGe (t : Option Int) (x : Int) : Bool :=
  match t with
  | none => false
  | some v => decide (v ≥ x)

def optLe (t : Option Int) (x : Int) : Bool :=
  match t with
  | none => false
  | some v => decide (v ≤ x)

/-- The scan branch of `loadBuckets` (src/src/analytics.ts:174-195):
enumerate the store's keys matching `prefix:table:*` (in store order, the
model of the cursor loop), delete every enumerated bucket older than the
retention horizon, and keep those passing the range check
`timestamp >= range[0] || timestamp <= range[1]` (the source's `||` makes
this true for every parsed timestamp when `range[0] ≤ range[1]`; a `NaN`
timestamp fails it).  Returns the store after the deletions and the kept
keys. -/
def scanPhase (cfg : AnalyticsConfig) (table : Str) (now a b : Int) :
    Store → Store × List Str
  | [] => ([], [])
  | (k, z) :: rest =>
    let tail := scanPhase cfg table now a b rest
    if (cfg.pfx ++ (':' :: (table ++ [':']))).isPrefixOf k then
      let tsv := parseIntJS (lastSeg ':' k)
      let evict :=
        match cfg.retention with
        | some r => optLt tsv (now - r)
        | none => false
      if evict then tail
      else if optGe tsv a || optLe tsv b then ((k, z) :: tail.1, k :: tail.2)
      else ((k, z) :: tail.1, tail.2)
    else ((k, z) :: tail.1, tail.2)

/-- The `while (t > range[1]) t -= bucketSize` loop of the direct path
(src/src/analytics.ts:198-200), with explicit fuel: for a positive bucket
size, `(t − b).toNat` steps always suffice; the source loop does not
terminate for non-positive sizes. -/
def walkGTAux (s b : Int) : Nat → Int → Int
  | 0, t => t
  | fuel + 1, t => if b < t then walkGTAux s b fuel (t - s) else t

def walkGT (s b t : Int) : Int := walkGTAux s b (t - b).toNat t

/-- The `while (t >= range[0]) { keys.push(t); t -= bucketSize }` loop
(src/src/analytics.ts:201-204), with explicit fuel as above. -/
def walkCollectAux (s a : Int) : Nat → Int → List Int
  | 0, _ => []
  | fuel + 1, t => if a ≤ t then t :: walkCollectAux s a fuel (t - s) else []

def walkCollect (s a t : Int) : List Int := walkCollectAux s a (t - a + 1).toNat t

/-- The buckets visited by the direct (non-scan) key derivation: start at
the current wall-clock bucket, step down past the range's upper bound,
then collect every bucket down to the lower bound. -/
def directBuckets (cfg : AnalyticsConfig) (now a b : Int) : List Int :=
  walkCollect cfg.bucketSize a (walkGT cfg.bucketSize b (bucketFloor cfg.bucketSize now))

def directKeys (cfg : AnalyticsConfig) (table : Str) (now a b : Int) : List Str :=
  (directBuckets cfg now a b).map (bucketKey cfg table)

/-- The cache-partition loop of `loadBuckets`
(src/src/analytics.ts:206-218): cached buckets are collected first, in key
order; misses (including entries expired and deleted by `get`) become
`loadKeys`. -/
def partitionCached (ttl now : Int) : CacheMap → List Str → CacheMap × List (Str × ZSet) × List Str
  | c, [] => (c, [], [])
  | c, k :: rest =>
    match cacheGet c ttl now k with
    | (c', some v) =>
      match partitionCached ttl now c' rest with
      | (c'', buckets, loads) => (c'', (k, v) :: buckets, loads)
    | (c', none) =>
      match partitionCached ttl now c' rest with
      | (c'', buckets, loads) => (c'', buckets, k :: loads)

/-- The pipelined `HGETALL` fetch loop (src/src/analytics.ts:220-235): a
present hash is cached (`createdAt = now`) and served; a missing key is
served as `{}` and not cached. -/
def fetchKeys (st : Store) (now : Int) : CacheMap → List Str → CacheMap × List (Str × ZSet)
  | c, [] => (c, [])
  | c, k :: rest =>
    match storeLookup st k with
    | some h =>
      match fetchKeys st now (cacheSet c k h now) rest with
      | (c', buckets) => (c', (k, h) :: buckets)
    | none =>
      match fetchKeys st now c rest with
      | (c', buckets) => (c', (k, []) :: buckets)

/-- Local state of the hash revision: the remote store and the process
cache. -/
structure HState where
  store : Store
  cache : CacheMap
deriving DecidableEq

/-- `loadBuckets` without the table-name guard
(src/src/analytics.ts:163-238).  The final
`buckets.sort((a, b) => a.hash.time - b.hash.time)` compares `hash.time`,
which is `undefined` for every bucket hash, so the comparator returns
`NaN` (treated as equal) and the ES2019-stable sort is the identity; it is
therefore omitted. -/
def loadBucketsCore (h : HState) (cfg : AnalyticsConfig) (table : Str) (scan : Bool)
    (a b now ttl : Int) : HState × List (Str × ZSet) :=
  let enum := if scan then scanPhase cfg table now a b h.store
              else (h.store, directKeys cfg table now a b)
  match partitionCached ttl now h.cache enum.2 with
  | (c1, cachedBuckets, loadKeys) =>
    match fetchKeys enum.1 now c1 loadKeys with
    | (c2, loaded) => (⟨enum.1, c2⟩, cachedBuckets ++ loaded)

def loadBuckets (h : HState) (cfg : AnalyticsConfig) (table : Str) (scan : Bool)
    (a b now ttl : Int) : Option (HState × List (Str × ZSet)) :=
  if validTable table then some (loadBucketsCore h cfg table scan a b now ttl) else none

/-- One row of `count`'s result: `time` is `parseInt` of the key's last
chunk (`none` models `NaN`), `count` the sum of the hash's values
(src/src/analytics.ts:253-259). -/
structure CountRow where
  time : Option Int
  count : Int
deriving DecidableEq

def sumCounts (z : ZSet) : Int := z.foldl (fun acc ms => acc + ms.2) 0

def countCore (h : HState) (cfg : AnalyticsConfig) (table : Str) (a b now ttl : Int) :
    HState × List CountRow :=
  match loadBucketsCore h cfg table false a b now ttl with
  | (h', buckets) =>
    (h', buckets.map (fun kv => ⟨parseIntJS (lastSeg ':' kv.1), sumCounts kv.2⟩))

/-- `count` (src/src/analytics.ts:242-261); `query` and `aggregateBy` read
the same `loadBuckets`-derived bucket set. -/
def countBuckets (h : HState) (cfg : AnalyticsConfig) (table : Str) (a b now ttl : Int) :
    Option (HState × List CountRow) :=
  if validTable table then some (countCore h cfg table a b now ttl) else none

/-! ## Lemmas about the direct key derivation -/

theorem walkGTAux_spec {s : Int} (hs : 0 < s) (b : Int) :
    ∀ (fuel : Nat) (t : Int), (t - b).toNat ≤ fuel →
      s ∣ t - walkGTAux s b fuel t ∧ walkGTAux s b fuel t ≤ t ∧
      (t ≤ b → walkGTAux s b fuel t = t) ∧
      (b < t → walkGTAux s b fuel t ≤ b ∧ b < walkGTAux s b fuel t + s) := by
  intro fuel
  induction fuel with
  | zero =>
    intro t hf
    refine ⟨by simp [walkGTAux], le_refl t, fun _ => rfl, fun hbt => absurd hbt (by omega)⟩
  | succ f ih =>
    intro t hf
    by_cases hbt : b < t
    · simp only [walkGTAux, if_pos hbt]
      have hf' : (t - s - b).toNat ≤ f := by omega
      obtain ⟨h1, h2, h3, h4⟩ := ih (t - s) hf'
      refine ⟨?_, by omega, fun h => absurd h (by omega), fun _ => ?_⟩
      · have h1' : s ∣ (t - s - walkGTAux s b f (t - s)) + s := dvd_add h1 (dvd_refl s)
        have heq : (t - s - walkGTAux s b f (t - s)) + s = t - walkGTAux s b f (t - s) := by
          ring
        rwa [heq] at h1'
      · by_cases hts : t - s ≤ b
        · rw [h3 hts]
          constructor <;> omega
        · exact h4 (by omega)
    · have hred : walkGTAux s b (f + 1) t = t := by
        simp [walkGTAux, hbt]
      rw [hred]
      exact ⟨by simp, le_refl t, fun _ => rfl, fun h => absurd h hbt⟩

theorem mem_walkCollectAux {s a : Int} (hs : 0 < s) :
    ∀ (fuel : Nat) (t : Int), (t - a + 1).toNat ≤ fuel →
      ∀ x : Int, x ∈ walkCollectAux s a fuel t ↔ (a ≤ x ∧ x ≤ t ∧ s ∣ t - x) := by
  intro fuel
  induction fuel with
  | zero =>
    intro t hf x
    have hta : t < a := by omega
    constructor
    · intro hx
      exact absurd hx (List.not_mem_nil x)
    · rintro ⟨h1, h2, _⟩
      exact absurd h2 (by omega)
  | succ f ih =>
    intro t hf x
    by_cases hat : a ≤ t
    · simp only [walkCollectAux, if_pos hat, List.mem_cons]
      have hf' : (t - s - a + 1).toNat ≤ f := by omega
      rw [ih (t - s) hf' x]
      constructor
      · rintro (rfl | ⟨h1, h2, h3⟩)
        · exact ⟨hat, le_refl x, by simp⟩
        · refine ⟨h1, by omega, ?_⟩
          have h3' : s ∣ (t - s - x) + s := dvd_add h3 (dvd_refl s)
          have heq : (t - s - x) + s = t - x := by ring
          rwa [heq] at h3'
      · rintro ⟨h1, h2, h3⟩
        by_cases hxt : x = t
        · exact Or.inl hxt
        · right
          obtain ⟨k, hk⟩ := h3
          have hlt : x < t := lt_of_le_of_ne h2 hxt
          have hk1 : 1 ≤ k := by nlinarith [hk, hs, hlt]
          refine ⟨h1, by nlinarith [hk, hk1, hs], ?_⟩
          refine ⟨k - 1, ?_⟩
          rw [mul_sub, mul_one]
          linarith [hk]
    · constructor
      · intro hx
        simp only [walkCollectAux, if_neg hat] at hx
        exact absurd hx (List.not_mem_nil x)
      · rintro ⟨h1, h2, _⟩
        exact absurd (le_trans h1 h2) hat

theorem walkGT_spec {s : Int} (hs : 0 < s) (b t : Int) :
    s ∣ t - walkGT s b t ∧ walkGT s b t ≤ t ∧ (t ≤ b → walkGT s b t = t) ∧
    (b < t → walkGT s b t ≤ b ∧ b < walkGT s b t + s) :=
  walkGTAux_spec hs b _ t (le_refl _)

theorem mem_walkCollect_iff {s a : Int} (hs : 0 < s) (t x : Int) :
    x ∈ walkCollect s a t ↔ (a ≤ x ∧ x ≤ t ∧ s ∣ t - x) :=
  mem_walkCollectAux hs _ t (le_refl _) x

/-- The buckets visited by the direct path are exactly the multiples of the
bucket size between the range's lower bound and the smaller of the range's
upper bound and the current wall-clock bucket. -/
theorem mem_directBuckets {cfg : AnalyticsConfig} (hs : 0 < cfg.bucketSize)
    (now a b x : Int) :
    x ∈ directBuckets cfg now a b ↔
      (cfg.bucketSize ∣ x ∧ a ≤ x ∧ x ≤ b ∧ x ≤ bucketFloor cfg.bucketSize now) := by
  have hdvd0 : cfg.bucketSize ∣ bucketFloor cfg.bucketSize now := by
    unfold bucketFloor
    exact dvd_mul_left _ _
  obtain ⟨hw1, hw2, hw3, hw4⟩ := walkGT_spec hs b (bucketFloor cfg.bucketSize now)
  have hdvd1 : cfg.bucketSize ∣ walkGT cfg.bucketSize b (bucketFloor cfg.bucketSize now) := by
    have h := hdvd0.sub hw1
    rwa [show bucketFloor cfg.bucketSize now -
        (bucketFloor cfg.bucketSize now - walkGT cfg.bucketSize b (bucketFloor cfg.bucketSize now))
        = walkGT cfg.bucketSize b (bucketFloor cfg.bucketSize now) from by ring] at h
  unfold directBuckets
  rw [mem_walkCollect_iff hs]
  constructor
  · rintro ⟨h1, h2, h3⟩
    have hdx : cfg.bucketSize ∣ x := by
      have h := hdvd1.sub h3
      rwa [show walkGT cfg.bucketSize b (bucketFloor cfg.bucketSize now) -
          (walkGT cfg.bucketSize b (bucketFloor cfg.bucketSize now) - x) = x from by ring] at h
    refine ⟨hdx, h1, ?_, by omega⟩
    by_cases hb : bucketFloor cfg.bucketSize now ≤ b
    · have := hw3 hb
      omega
    · have := hw4 (by omega)
      omega
  · rintro ⟨hdx, h1, h2, h3⟩
    have htx : cfg.bucketSize ∣ walkGT cfg.bucketSize b (bucketFloor cfg.bucketSize now) - x :=
      hdvd1.sub hdx
    refine ⟨h1, ?_, htx⟩
    by_cases hb : bucketFloor cfg.bucketSize now ≤ b
    · rw [hw3 hb]
      omega
    · obtain ⟨hb1, hb2⟩ := hw4 (by omega)
      obtain ⟨k, hk⟩ := htx
      have hk0 : 0 ≤ k := by nlinarith [hk, hs]
      nlinarith [hk, hk0, hs]

/-! ## Claim C10: the bucket set read by direct-range reads -/

theorem partitionCached_empty (ttl now : Int) (keys : List Str) :
    partitionCached ttl now [] keys = ([], [], keys) := by
  induction keys with
  | nil => rfl
  | cons k rest ih =>
    simp only [partitionCached, cacheGet, cacheLookup, ih]

theorem fetchKeys_snd (st : Store) (now : Int) :
    ∀ (c : CacheMap) (keys : List Str),
      (fetchKeys st now c keys).2 = keys.map (fun k => (k, (storeLookup st k).getD [])) := by
  intro c keys
  induction keys generalizing c with
  | nil => rfl
  | cons k rest ih =>
    simp only [fetchKeys, List.map_cons]
    cases hk : storeLookup st k with
    | none =>
      cases hrec : fetchKeys st now c rest with
      | mk c' buckets =>
        have h2 := ih c
        rw [hrec] at h2
        simp at h2
        simp [h2, hk]
    | some h =>
      cases hrec : fetchKeys st now (cacheSet c k h now) rest with
      | mk c' buckets =>
        have h2 := ih (cacheSet c k h now)
        rw [hrec] at h2
        simp at h2
        simp [h2, hk, hrec]

theorem parse_lastSeg_bucketKey (cfg : AnalyticsConfig) (table : Str) (t : Int) :
    parseIntJS (lastSeg ':' (bucketKey cfg table t)) = some t := by
  unfold bucketKey
  rw [show cfg.pfx ++ (':' :: (table ++ (':' :: intRepr t)))
      = (cfg.pfx ++ ':' :: table) ++ (':' :: intRepr t) from by simp,
    lastSeg_append _ (not_colon_mem_intRepr t), parseIntJS_intRepr]

/-- Claim C10.  For every call to `count` (and `query`/`aggregateBy`,
which read the same `loadBuckets`-derived bucket set) with range `[a, b]`,
the buckets read are derived by walking backward from the current
wall-clock bucket, so no bucket whose start exceeds the current bucket is
read or returned even when `b` lies in the future; starting from an empty
cache, the returned rows' times are exactly the derived buckets, and a
bucket `x` is derived iff it lies on the bucket-size grid with
`a ≤ x ≤ min(b, current bucket start)`. -/
theorem count_bucket_range (h : HState) (cfg : AnalyticsConfig) (table : Str)
    (a b now ttl : Int)
    (hs : 0 < cfg.bucketSize) (hv : validTable table = true) (hc : h.cache = []) :
    ∃ h' rows, countBuckets h cfg table a b now ttl = some (h', rows)
      ∧ rows.map (fun r => r.time) = (directBuckets cfg now a b).map some
      ∧ (∀ x : Int, x ∈ directBuckets cfg now a b ↔
          (cfg.bucketSize ∣ x ∧ a ≤ x ∧ x ≤ b ∧ x ≤ bucketFloor cfg.bucketSize now))
      ∧ (∀ x : Int, x ∈ directBuckets cfg now a b → x ≤ bucketFloor cfg.bucketSize now) := by
  have hload : (loadBucketsCore h cfg table false a b now ttl).2
      = (directKeys cfg table now a b).map (fun k => (k, (storeLookup h.store k).getD [])) := by
    unfold loadBucketsCore
    simp only [Bool.false_eq_true, if_false, hc, partitionCached_empty]
    cases hfetch : fetchKeys h.store now [] (directKeys cfg table now a b) with
    | mk c2 loaded =>
      have hsnd := fetchKeys_snd h.store now [] (directKeys cfg table now a b)
      rw [hfetch] at hsnd
      simpa using hsnd
  refine ⟨(countCore h cfg table a b now ttl).1, (countCore h cfg table a b now ttl).2,
    ?_, ?_, fun x => mem_directBuckets hs now a b x,
    fun x hx => ((mem_directBuckets hs now a b x).mp hx).2.2.2⟩
  · unfold countBuckets
    rw [if_pos hv]
  · unfold countCore
    cases hload2 : loadBucketsCore h cfg table false a b now ttl with
    | mk h' buckets =>
      rw [hload2] at hload
      have hb : buckets = (directKeys cfg table now a b).map
          (fun k => (k, (storeLookup h.store k).getD [])) := hload
      simp only [hb, directKeys, List.map_map]
      apply List.map_congr_left
      intro x hx
      simp [Function.comp, parse_lastSeg_bucketKey]

/-- Witness for `count_bucket_range`: bucket size 10, range `[0, 100]`
with the clock at 25 — only buckets 0, 10, 20 are read. -/
theorem count_bucket_range_witness :
    (0 : Int) < 10 ∧ validTable ("t".toList) = true
  ∧ (∃ h' rows, countBuckets ⟨[], []⟩ ⟨"p".toList, 10, none⟩ ("t".toList) 0 100 25 60000
        = some (h', rows)
      ∧ rows.map (fun r => r.time)
          = (directBuckets ⟨"p".toList, 10, none⟩ 25 0 100).map some
      ∧ (∀ x : Int, x ∈ directBuckets ⟨"p".toList, 10, none⟩ 25 0 100 ↔
          ((10 : Int) ∣ x ∧ 0 ≤ x ∧ x ≤ 100 ∧ x ≤ bucketFloor 10 25))
      ∧ (∀ x : Int, x ∈ directBuckets ⟨"p".toList, 10, none⟩ 25 0 100 →
          x ≤ bucketFloor 10 25)) :=
  ⟨by decide, by decide,
   count_bucket_range ⟨[], []⟩ ⟨"p".toList, 10, none⟩ ("t".toList) 0 100 25 60000
     (by decide) (by decide) rfl⟩

/-! ## Claim C9: read-through cache TTL semantics -/

theorem walkCollect_self {s a : Int} (hs : 0 < s) : walkCollect s a a = [a] := by
  have hfuel : (a - a + 1).toNat = 1 := by omega
  unfold walkCollect
  rw [hfuel]
  simp [walkCollectAux]

/-- When the requested range is the single bucket `b` (a grid multiple not
in the future), the direct path derives exactly that bucket. -/
theorem directBuckets_single {cfg : AnalyticsConfig} (hs : 0 < cfg.bucketSize)
    {now b : Int} (hb : cfg.bucketSize ∣ b) (hle : b ≤ bucketFloor cfg.bucketSize now) :
    directBuckets cfg now b b = [b] := by
  have hdvd0 : cfg.bucketSize ∣ bucketFloor cfg.bucketSize now := by
    unfold bucketFloor
    exact dvd_mul_left _ _
  obtain ⟨hw1, hw2, hw3, hw4⟩ := walkGT_spec hs b (bucketFloor cfg.bucketSize now)
  have ht1 : walkGT cfg.bucketSize b (bucketFloor cfg.bucketSize now) = b := by
    by_cases hcase : bucketFloor cfg.bucketSize now ≤ b
    · have hbe : b = bucketFloor cfg.bucketSize now := le_antisymm hle hcase
      rw [hw3 hcase, ← hbe]
    · obtain ⟨hb1, hb2⟩ := hw4 (by omega)
      have hdt : cfg.bucketSize ∣
          b - walkGT cfg.bucketSize b (bucketFloor cfg.bucketSize now) := by
        have h := hb.sub (hdvd0.sub hw1)
        rwa [show b - (bucketFloor cfg.bucketSize now -
            (bucketFloor cfg.bucketSize now -
              walkGT cfg.bucketSize b (bucketFloor cfg.bucketSize now)))
            = b - walkGT cfg.bucketSize b (bucketFloor cfg.bucketSize now) from by ring] at h
      obtain ⟨k, hk⟩ := hdt
      have hk0 : k = 0 := by nlinarith [hk, hs, hb1, hb2]
      rw [hk0, mul_zero] at hk
      omega
  unfold directBuckets
  rw [ht1, walkCollect_self hs]

theorem cacheLookup_cacheSet (c : CacheMap) (k : Str) (v : ZSet) (now : Int) :
    cacheLookup (cacheSet c k v now) k = some ⟨v, now⟩ := by
  induction c with
  | nil => simp [cacheSet, cacheLookup]
  | cons hd rest ih =>
    obtain ⟨k', e⟩ := hd
    by_cases hk : k' = k
    · simp [cacheSet, cacheLookup, hk]
    · simp [cacheSet, cacheLookup, hk, ih]

theorem partitionCached_one_miss (ttl now : Int) (c : CacheMap) (k : Str)
    (h : cacheLookup c k = none) :
    partitionCached ttl now c [k] = (c, [], [k]) := by
  unfold partitionCached cacheGet
  rw [h]
  rfl

theorem partitionCached_one_hit (ttl now : Int) (c : CacheMap) (k : Str) (e : CacheE)
    (h : cacheLookup c k = some e) (hfresh : ¬ now - e.createdAt > ttl) :
    partitionCached ttl now c [k] = (c, [(k, e.value)], []) := by
  unfold partitionCached cacheGet
  rw [h]
  simp only [if_neg hfresh]
  rfl

theorem partitionCached_one_expired (ttl now : Int) (c : CacheMap) (k : Str) (e : CacheE)
    (h : cacheLookup c k = some e) (hexp : now - e.createdAt > ttl) :
    partitionCached ttl now c [k] = (cacheRemove c k, [], [k]) := by
  unfold partitionCached cacheGet
  rw [h]
  simp only [if_pos hexp]
  rfl

theorem fetchKeys_one_some (st : Store) (now : Int) (c : CacheMap) (k : Str) (h : ZSet)
    (hst : storeLookup st k = some h) :
    fetchKeys st now c [k] = (cacheSet c k h now, [(k, h)]) := by
  unfold fetchKeys
  rw [hst]
  rfl

theorem fetchKeys_one_none (st : Store) (now : Int) (c : CacheMap) (k : Str)
    (hst : storeLookup st k = none) :
    fetchKeys st now c [k] = (c, [(k, [])]) := by
  unfold fetchKeys
  rw [hst]
  rfl

/-- Claim C9.  Two reads of the same (present) bucket through the
read-through cache, the second while the cache entry's age is within the
TTL window, return identical counter snapshots even if the underlying
store changed in between; a read after the entry's TTL has expired fetches
from the store and reflects the current store state. -/
theorem cache_ttl_semantics (st1 st2 : Store) (c0 : CacheMap) (cfg : AnalyticsConfig)
    (table : Str) (b now1 now2 ttl : Int) (h1 : ZSet)
    (hv : validTable table = true) (hs : 0 < cfg.bucketSize)
    (hb : cfg.bucketSize ∣ b)
    (hle1 : b ≤ bucketFloor cfg.bucketSize now1)
    (hle2 : b ≤ bucketFloor cfg.bucketSize now2)
    (hc0 : cacheLookup c0 (bucketKey cfg table b) = none)
    (hst1 : storeLookup st1 (bucketKey cfg table b) = some h1) :
    ∃ c1, loadBuckets ⟨st1, c0⟩ cfg table false b b now1 ttl
        = some (⟨st1, c1⟩, [(bucketKey cfg table b, h1)])
      ∧ cacheLookup c1 (bucketKey cfg table b) = some ⟨h1, now1⟩
      ∧ (now2 - now1 ≤ ttl →
          (loadBucketsCore ⟨st2, c1⟩ cfg table false b b now2 ttl).2
            = [(bucketKey cfg table b, h1)])
      ∧ (ttl < now2 - now1 →
          (loadBucketsCore ⟨st2, c1⟩ cfg table false b b now2 ttl).2
            = [(bucketKey cfg table b,
                (storeLookup st2 (bucketKey cfg table b)).getD [])]) := by
  have hdk1 : directKeys cfg table now1 b b = [bucketKey cfg table b] := by
    unfold directKeys
    rw [directBuckets_single hs hb hle1]
    rfl
  have hdk2 : directKeys cfg table now2 b b = [bucketKey cfg table b] := by
    unfold directKeys
    rw [directBuckets_single hs hb hle2]
    rfl
  refine ⟨cacheSet c0 (bucketKey cfg table b) h1 now1, ?_, ?_, ?_, ?_⟩
  · unfold loadBuckets
    rw [if_pos hv]
    unfold loadBucketsCore
    simp only [Bool.false_eq_true, if_false]
    rw [hdk1, partitionCached_one_miss ttl now1 c0 _ hc0,
      fetchKeys_one_some st1 now1 c0 _ h1 hst1]
    rfl
  · exact cacheLookup_cacheSet c0 _ h1 now1
  · intro hfresh
    unfold loadBucketsCore
    simp only [Bool.false_eq_true, if_false]
    rw [hdk2, partitionCached_one_hit ttl now2 _ _ ⟨h1, now1⟩
      (cacheLookup_cacheSet c0 _ h1 now1) (by simp; omega)]
    rfl
  · intro hexp
    unfold loadBucketsCore
    simp only [Bool.false_eq_true, if_false]
    rw [hdk2, partitionCached_one_expired ttl now2 _ _ ⟨h1, now1⟩
      (cacheLookup_cacheSet c0 _ h1 now1) (by simp; omega)]
    cases hst2 : storeLookup st2 (bucketKey cfg table b) with
    | none =>
      rw [fetchKeys_one_none st2 now2 _ _ hst2]
      rfl
    | some h2 =>
      rw [fetchKeys_one_some st2 now2 _ _ h2 hst2]
      rfl

/-- Concrete fixtures for the cache witness: one bucket at key
`p:t:0` whose contents change from 3 to 7 between the reads. -/
def cfgW : AnalyticsConfig := ⟨"p".toList, 10, none⟩

def keyW : Str := bucketKey cfgW ("t".toList) 0

def storeW1 : Store := [(keyW, [("x".toList, 3)])]

def storeW2 : Store := [(keyW, [("x".toList, 7)])]

/-- Witness for `cache_ttl_semantics`: the second read at `now = 15` (entry
age 10 ≤ TTL) returns the stale snapshot `x ↦ 3` although the store now
holds `x ↦ 7`; a read after expiry would return the current contents. -/
theorem cache_ttl_semantics_witness :
    validTable ("t".toList) = true ∧ (0 : Int) < 10
  ∧ (∃ c1, loadBuckets ⟨storeW1, []⟩ cfgW ("t".toList) false 0 0 5 60000
        = some (⟨storeW1, c1⟩, [(keyW, [("x".toList, 3)])])
      ∧ cacheLookup c1 keyW = some ⟨[("x".toList, 3)], 5⟩
      ∧ ((15 : Int) - 5 ≤ 60000 →
          (loadBucketsCore ⟨storeW2, c1⟩ cfgW ("t".toList) false 0 0 15 60000).2
            = [(keyW, [("x".toList, 3)])])
      ∧ ((60000 : Int) < 15 - 5 →
          (loadBucketsCore ⟨storeW2, c1⟩ cfgW ("t".toList) false 0 0 15 60000).2
            = [(keyW, (storeLookup storeW2 keyW).getD [])])) :=
  ⟨by decide, by decide,
   cache_ttl_semantics storeW1 storeW2 [] cfgW ("t".toList) 0 5 15 60000
     [("x".toList, 3)] (by decide) (by decide) (by decide) (by decide) (by decide)
     (by decide) (by decide)⟩

/-! ## Claim C8: lazy retention eviction during pattern-scanning reads -/

theorem scanPhase_cons_evict {cfg : AnalyticsConfig} {table : Str} {now a b : Int}
    {k : Str} {z : ZSet} {rest : Store}
    (hm : ((cfg.pfx ++ (':' :: (table ++ [':']))).isPrefixOf k) = true)
    (hev : (match cfg.retention with
        | some r => optLt (parseIntJS (lastSeg ':' k)) (now - r)
        | none => false) = true) :
    scanPhase cfg table now a b ((k, z) :: rest) = scanPhase cfg table now a b rest := by
  simp [scanPhase, hm, hev]

theorem scanPhase_cons_keep {cfg : AnalyticsConfig} {table : Str} {now a b : Int}
    {k : Str} {z : ZSet} {rest : Store}
    (hm : ((cfg.pfx ++ (':' :: (table ++ [':']))).isPrefixOf k) = true)
    (hev : (match cfg.retention with
        | some r => optLt (parseIntJS (lastSeg ':' k)) (now - r)
        | none => false) = false)
    (hrange : (optGe (parseIntJS (lastSeg ':' k)) a
        || optLe (parseIntJS (lastSeg ':' k)) b) = true) :
    scanPhase cfg table now a b ((k, z) :: rest)
      = ((k, z) :: (scanPhase cfg table now a b rest).1,
         k :: (scanPhase cfg table now a b rest).2) := by
  simp [scanPhase, hm, hev, hrange]

theorem scanPhase_cons_skip {cfg : AnalyticsConfig} {table : Str} {now a b : Int}
    {k : Str} {z : ZSet} {rest : Store}
    (hm : ((cfg.pfx ++ (':' :: (table ++ [':']))).isPrefixOf k) = true)
    (hev : (match cfg.retention with
        | some r => optLt (parseIntJS (lastSeg ':' k)) (now - r)
        | none => false) = false)
    (hrange : (optGe (parseIntJS (lastSeg ':' k)) a
        || optLe (parseIntJS (lastSeg ':' k)) b) = false) :
    scanPhase cfg table now a b ((k, z) :: rest)
      = ((k, z) :: (scanPhase cfg table now a b rest).1,
         (scanPhase cfg table now a b rest).2) := by
  simp [scanPhase, hm, hev, hrange]

theorem scanPhase_cons_nomatch {cfg : AnalyticsConfig} {table : Str} {now a b : Int}
    {k : Str} {z : ZSet} {rest : Store}
    (hm : ((cfg.pfx ++ (':' :: (table ++ [':']))).isPrefixOf k) = false) :
    scanPhase cfg table now a b ((k, z) :: rest)
      = ((k, z) :: (scanPhase cfg table now a b rest).1,
         (scanPhase cfg table now a b rest).2) := by
  simp [scanPhase, hm]

/-- A matching bucket key older than the retention horizon is deleted by
the scan and excluded from the kept keys. -/
theorem scanPhase_evicted (cfg : AnalyticsConfig) (table : Str) (now a b : Int)
    (r : Int) (hr : cfg.retention = some r) (k : Str) (tsv : Int)
    (hmatch : ((cfg.pfx ++ (':' :: (table ++ [':']))).isPrefixOf k) = true)
    (hts : parseIntJS (lastSeg ':' k) = some tsv) (hold : tsv < now - r) :
    ∀ st : Store, storeLookup (scanPhase cfg table now a b st).1 k = none
      ∧ k ∉ (scanPhase cfg table now a b st).2 := by
  have hevict : (match cfg.retention with
      | some r => optLt (parseIntJS (lastSeg ':' k)) (now - r)
      | none => false) = true := by
    rw [hr, hts]
    simp [optLt]
    omega
  intro st
  induction st with
  | nil => exact ⟨rfl, by simp [scanPhase]⟩
  | cons hd rest ih =>
    obtain ⟨k', z⟩ := hd
    obtain ⟨ih1, ih2⟩ := ih
    by_cases hkk : k' = k
    · subst hkk
      rw [scanPhase_cons_evict hmatch hevict]
      exact ⟨ih1, ih2⟩
    · have hlem : ∀ z' : ZSet,
          storeLookup ((k', z') :: (scanPhase cfg table now a b rest).1) k = none := by
        intro z'
        simp [storeLookup, hkk, ih1]
      cases hm : ((cfg.pfx ++ (':' :: (table ++ [':']))).isPrefixOf k') with
      | false =>
        rw [scanPhase_cons_nomatch hm]
        exact ⟨hlem z, ih2⟩
      | true =>
        cases hev : (match cfg.retention with
            | some r => optLt (parseIntJS (lastSeg ':' k')) (now - r)
            | none => false) with
        | true =>
          rw [scanPhase_cons_evict hm hev]
          exact ⟨ih1, ih2⟩
        | false =>
          cases hrange : (optGe (parseIntJS (lastSeg ':' k')) a
              || optLe (parseIntJS (lastSeg ':' k')) b) with
          | true =>
            rw [scanPhase_cons_keep hm hev hrange]
            refine ⟨hlem z, ?_⟩
            intro hmem
            rcases List.mem_cons.mp hmem with hcase | hcase
            · exact hkk hcase.symm
            · exact ih2 hcase
          | false =>
            rw [scanPhase_cons_skip hm hev hrange]
            exact ⟨hlem z, ih2⟩

/-- Keys kept by the scan are keys present in the scanned store. -/
theorem scanPhase_keys_mem (cfg : AnalyticsConfig) (table : Str) (now a b : Int) :
    ∀ (st : Store) (k : Str), k ∈ (scanPhase cfg table now a b st).2 →
      storeLookup st k ≠ none := by
  intro st
  induction st with
  | nil =>
    intro k hk
    simp [scanPhase] at hk
  | cons hd rest ih =>
    obtain ⟨k', z⟩ := hd
    intro k hk
    by_cases hkk : k' = k
    · subst hkk
      simp [storeLookup]
    · have htail : k ∈ (scanPhase cfg table now a b rest).2 → storeLookup rest k ≠ none := ih k
      have hcons : storeLookup rest k ≠ none →
          storeLookup ((k', z) :: rest) k ≠ none := by
        simp [storeLookup, hkk]
      cases hm : ((cfg.pfx ++ (':' :: (table ++ [':']))).isPrefixOf k') with
      | false =>
        rw [scanPhase_cons_nomatch hm] at hk
        exact hcons (htail hk)
      | true =>
        cases hev : (match cfg.retention with
            | some r => optLt (parseIntJS (lastSeg ':' k')) (now - r)
            | none => false) with
        | true =>
          rw [scanPhase_cons_evict hm hev] at hk
          exact hcons (htail hk)
        | false =>
          cases hrange : (optGe (parseIntJS (lastSeg ':' k')) a
              || optLe (parseIntJS (lastSeg ':' k')) b) with
          | true =>
            rw [scanPhase_cons_keep hm hev hrange] at hk
            rcases List.mem_cons.mp hk with hcase | hcase
            · exact absurd hcase.symm hkk
            · exact hcons (htail hcase)
          | false =>
            rw [scanPhase_cons_skip hm hev hrange] at hk
            exact hcons (htail hk)

theorem partitionCached_mem (ttl now : Int) :
    ∀ (c : CacheMap) (keys : List Str),
      (∀ e ∈ (partitionCached ttl now c keys).2.1, e.1 ∈ keys) ∧
      (∀ x ∈ (partitionCached ttl now c keys).2.2, x ∈ keys) := by
  intro c keys
  induction keys generalizing c with
  | nil =>
    refine ⟨?_, ?_⟩ <;> intro e he <;> simp [partitionCached] at he
  | cons k rest ih =>
    simp only [partitionCached]
    cases hcg : cacheGet c ttl now k with
    | mk c' hit =>
      have hih := ih c'
      cases hit with
      | some v =>
        refine ⟨?_, ?_⟩
        · intro e he
          rcases List.mem_cons.mp he with hcase | hcase
          · rw [hcase]
            exact List.mem_cons_self _ _
          · exact List.mem_cons_of_mem _ (hih.1 e hcase)
        · intro x hx
          exact List.mem_cons_of_mem _ (hih.2 x hx)
      | none =>
        refine ⟨?_, ?_⟩
        · intro e he
          exact List.mem_cons_of_mem _ (hih.1 e he)
        · intro x hx
          rcases List.mem_cons.mp hx with hcase | hcase
          · rw [hcase]
            exact List.mem_cons_self _ _
          · exact List.mem_cons_of_mem _ (hih.2 x hcase)

theorem loadBucketsCore_scan_store (h : HState) (cfg : AnalyticsConfig) (table : Str)
    (a b now ttl : Int) :
    (loadBucketsCore h cfg table true a b now ttl).1.store
      = (scanPhase cfg table now a b h.store).1 := rfl

theorem loadBucketsCore_scan_snd (h : HState) (cfg : AnalyticsConfig) (table : Str)
    (a b now ttl : Int) :
    (loadBucketsCore h cfg table true a b now ttl).2
      = (partitionCached ttl now h.cache (scanPhase cfg table now a b h.store).2).2.1
        ++ (fetchKeys (scanPhase cfg table now a b h.store).1 now
            (partitionCached ttl now h.cache (scanPhase cfg table now a b h.store).2).1
            (partitionCached ttl now h.cache (scanPhase cfg table now a b h.store).2).2.2).2 := rfl

theorem loadBucketsCore_scan_result_keys (h : HState) (cfg : AnalyticsConfig) (table : Str)
    (a b now ttl : Int) :
    ∀ e ∈ (loadBucketsCore h cfg table true a b now ttl).2,
      e.1 ∈ (scanPhase cfg table now a b h.store).2 := by
  intro e he
  rw [loadBucketsCore_scan_snd] at he
  have hmem := partitionCached_mem ttl now h.cache (scanPhase cfg table now a b h.store).2
  have hsnd := fetchKeys_snd (scanPhase cfg table now a b h.store).1 now
    (partitionCached ttl now h.cache (scanPhase cfg table now a b h.store).2).1
    (partitionCached ttl now h.cache (scanPhase cfg table now a b h.store).2).2.2
  rcases List.mem_append.mp he with hcase | hcase
  · exact hmem.1 e hcase
  · rw [hsnd] at hcase
    obtain ⟨k, hkmem, hke⟩ := List.mem_map.mp hcase
    rw [← hke]
    exact hmem.2 k hkmem

/-- Claim C8 (amended).  When retention is enabled, every pattern-scanning
read deletes each discovered bucket whose bucketStart lies before
`now − retention`, excludes it from that read's result set, and the bucket
is absent from all subsequent pattern-scanning reads.  (The original
claim's "absent from all subsequent reads" is too strong: a direct-key
read may still serve the evicted bucket from the process cache within its
TTL — see `retention_evicted_bucket_resurfaces`.) -/
theorem retention_scan_evicts (h : HState) (cfg : AnalyticsConfig) (table : Str)
    (a b now ttl : Int) (r : Int) (k : Str) (tsv : Int)
    (hv : validTable table = true)
    (hr : cfg.retention = some r)
    (hmatch : ((cfg.pfx ++ (':' :: (table ++ [':']))).isPrefixOf k) = true)
    (hts : parseIntJS (lastSeg ':' k) = some tsv)
    (hold : tsv < now - r) :
    ∃ h' res, loadBuckets h cfg table true a b now ttl = some (h', res)
      ∧ storeLookup h'.store k = none
      ∧ (∀ e ∈ res, e.1 ≠ k)
      ∧ (∀ (a2 b2 now2 ttl2 : Int),
          ∀ e ∈ (loadBucketsCore h' cfg table true a2 b2 now2 ttl2).2, e.1 ≠ k) := by
  obtain ⟨hdel, hexcl⟩ := scanPhase_evicted cfg table now a b r hr k tsv hmatch hts hold h.store
  refine ⟨(loadBucketsCore h cfg table true a b now ttl).1,
    (loadBucketsCore h cfg table true a b now ttl).2, ?_, ?_, ?_, ?_⟩
  · unfold loadBuckets
    rw [if_pos hv]
  · rw [loadBucketsCore_scan_store]
    exact hdel
  · intro e he
    intro hek
    apply hexcl
    rw [← hek]
    exact loadBucketsCore_scan_result_keys h cfg table a b now ttl e he
  · intro a2 b2 now2 ttl2 e he
    intro hek
    have hkeys := loadBucketsCore_scan_result_keys
      (loadBucketsCore h cfg table true a b now ttl).1 cfg table a2 b2 now2 ttl2 e he
    have hpresent := scanPhase_keys_mem cfg table now2 a2 b2
      (loadBucketsCore h cfg table true a b now ttl).1.store e.1 hkeys
    rw [hek, loadBucketsCore_scan_store] at hpresent
    exact hpresent hdel

/-- Concrete fixtures for the retention counterexample: bucket size 10,
retention 100, one bucket `p:t:0` holding `x ↦ 5`. -/
def cfgC8 : AnalyticsConfig := ⟨"p".toList, 10, some 100⟩

def keyC8 : Str := bucketKey cfgC8 ("t".toList) 0

/-- Before any read: the store holds bucket 0, the cache is empty. -/
def hStateC8a : HState := ⟨[(keyC8, [("x".toList, 5)])], []⟩

/-- After a direct-key read at `now = 5`, which caches the bucket. -/
def hStateC8b : HState := (loadBucketsCore hStateC8a cfgC8 ("t".toList) false 0 0 5 60000).1

/-- After a pattern-scanning read at `now = 110`, which evicts the bucket
(`0 < 110 − 100`). -/
def hStateC8c : HState := (loadBucketsCore hStateC8b cfgC8 ("t".toList) true 0 0 110 60000).1

/-- Claim C8, counterexample to "that bucket is absent from all subsequent
reads": after the scanning read at `now = 110` evicts bucket `p:t:0` from
the store (first two conjuncts), a subsequent direct-key read at
`now = 115` still returns the bucket with its pre-eviction contents,
served from the process cache populated by the read at `now = 5` (entry
age 110 < TTL 60000). -/
theorem retention_evicted_bucket_resurfaces :
    storeLookup hStateC8c.store keyC8 = none
  ∧ (loadBucketsCore hStateC8b cfgC8 ("t".toList) true 0 0 110 60000).2 = []
  ∧ (loadBucketsCore hStateC8c cfgC8 ("t".toList) false 0 0 115 60000).2
      = [(keyC8, [("x".toList, 5)])] := by
  refine ⟨?_, ?_, ?_⟩ <;> decide

/-- Witness for `retention_scan_evicts` at the concrete fixture: the scan
at `now = 110` deletes bucket `p:t:0` and no scanning read returns it. -/
theorem retention_scan_evicts_witness :
    validTable ("t".toList) = true
  ∧ cfgC8.retention = some 100
  ∧ ((cfgC8.pfx ++ (':' :: (("t".toList) ++ [':']))).isPrefixOf keyC8) = true
  ∧ parseIntJS (lastSeg ':' keyC8) = some 0
  ∧ (0 : Int) < 110 - 100
  ∧ (∃ h' res, loadBuckets hStateC8a cfgC8 ("t".toList) true 0 0 110 60000 = some (h', res)
      ∧ storeLookup h'.store keyC8 = none
      ∧ (∀ e ∈ res, e.1 ≠ keyC8)
      ∧ (∀ (a2 b2 now2 ttl2 : Int),
          ∀ e ∈ (loadBucketsCore h' cfgC8 ("t".toList) true a2 b2 now2 ttl2).2,
            e.1 ≠ keyC8)) :=
  ⟨by decide, rfl, by decide, by decide, by decide,
   retention_scan_evicts hStateC8a cfgC8 ("t".toList) 0 0 110 60000 100 keyC8 0
     (by decide) rfl (by decide) (by decide) (by decide)⟩
